import Mathlib

/-!
# Verification of the aoc-2023 repository against its specification

This file shallowly embeds the parts of the `guy-732/aoc-2023` Rust
repository that the specification's claims are about, and proves (or
refutes) each claim against the embedding.

* Day 14 (`src/day14/src/main.rs`): the `Platform` grid, the four slide
  operations, `spin_cycle`, `load_on_north_beam`, and the
  tortoise-and-hare `solve_part_2`.
* Day 12 (`src/day12/src/main.rs`): `SpringState`, `SpringLine`, the
  group-skipping `count_arrangements_recursive`, and the naive
  enumeration `_count_arrangements_impl_drag_adapted` with
  `_check_data_matching`.
* Day 08 part 2, day 01 part 1, and the per-binary I/O surface of all
  30 binaries (answer line, input file, rayon use, argument/environment
  reads, extra files).

Machine integers (`u64`, `usize`) are modelled as `Nat`; the equalities
proved here are unaffected by reduction modulo `2 ^ 64` since both sides
are computed by the same arithmetic.
-/

namespace Aoc2023

/-! ## Day 14: the platform grid

Transcribed from `src/day14/src/main.rs`. -/

/-- `enum PlatformCell { RollingRock, StationaryRock, Empty }`. -/
inductive PlatformCell where
  | RollingRock
  | StationaryRock
  | Empty
deriving DecidableEq, Repr

/-- `struct Platform { grid: Box<[Box<[PlatformCell]>]> }`. -/
abbrev Platform := List (List PlatformCell)

namespace Platform

/-- `self.grid[i][j]` (total; out-of-range reads default to `Empty`.
All in-repo uses index in range, where this agrees with Rust). -/
def getCell (g : Platform) (i j : Nat) : PlatformCell :=
  (g.getD i []).getD j PlatformCell.Empty

/-- `self.grid[i][j] = c` (no-op out of range, matching in-range use). -/
def setCell (g : Platform) (i j : Nat) (c : PlatformCell) : Platform :=
  g.set i ((g.getD i []).set j c)

/-- Number of rows, `self.grid.len()`. -/
def rows (g : Platform) : Nat := g.length

/-- Number of columns, `self.grid[0].len()`. -/
def cols (g : Platform) : Nat := (g.headD []).length

/-- `((i + 1)..self.grid.len()).take_while(|&k| matches!(self.grid[k][j], Empty)).last()` -/
def destSouth (g : Platform) (i j : Nat) : Option Nat :=
  ((List.range' (i + 1) (g.rows - (i + 1))).takeWhile
    (fun k => g.getCell k j = PlatformCell.Empty)).getLast?

/-- `(0..i).rev().take_while(|&k| matches!(self.grid[k][j], Empty)).last()` -/
def destNorth (g : Platform) (i j : Nat) : Option Nat :=
  ((List.range i).reverse.takeWhile
    (fun k => g.getCell k j = PlatformCell.Empty)).getLast?

/-- `(0..j).rev().take_while(|&k| matches!(self.grid[i][k], Empty)).last()` -/
def destWest (g : Platform) (i j : Nat) : Option Nat :=
  ((List.range j).reverse.takeWhile
    (fun k => g.getCell i k = PlatformCell.Empty)).getLast?

/-- `((j + 1)..self.grid[0].len()).take_while(|&k| matches!(self.grid[i][k], Empty)).last()` -/
def destEast (g : Platform) (i j : Nat) : Option Nat :=
  ((List.range' (j + 1) (g.cols - (j + 1))).takeWhile
    (fun k => g.getCell i k = PlatformCell.Empty)).getLast?

/-- Loop body shared by `slide_rolling_to_north` / `_south`: if cell
`(i, j)` holds a rolling rock and the column search finds a landing row
`k`, move the rock there. -/
def slideColStep (dest : Platform → Nat → Nat → Option Nat)
    (g : Platform) (i j : Nat) : Platform :=
  if g.getCell i j = PlatformCell.RollingRock then
    match dest g i j with
    | some k => (g.setCell k j PlatformCell.RollingRock).setCell i j PlatformCell.Empty
    | none => g
  else g

/-- Loop body shared by `slide_rolling_to_west` / `_east`: the landing
cell is `(i, k)` in the same row. -/
def slideRowStep (dest : Platform → Nat → Nat → Option Nat)
    (g : Platform) (i j : Nat) : Platform :=
  if g.getCell i j = PlatformCell.RollingRock then
    match dest g i j with
    | some k => (g.setCell i k PlatformCell.RollingRock).setCell i j PlatformCell.Empty
    | none => g
  else g

/-- `fn slide_rolling_to_north`: `for i in 1..rows { for j in 0..cols { … } }`.
The loop bounds are those of the initial grid; every step preserves the
grid's shape, so they agree with Rust's re-evaluated `self.grid.len()`. -/
def slide_rolling_to_north (g : Platform) : Platform :=
  (List.range' 1 (g.rows - 1)).foldl (fun acc i =>
    (List.range g.cols).foldl (fun acc2 j => slideColStep destNorth acc2 i j) acc) g

/-- `fn slide_rolling_to_south`: `for i in (0..(rows - 1)).rev() { for j in 0..cols { … } }`. -/
def slide_rolling_to_south (g : Platform) : Platform :=
  (List.range (g.rows - 1)).reverse.foldl (fun acc i =>
    (List.range g.cols).foldl (fun acc2 j => slideColStep destSouth acc2 i j) acc) g

/-- `fn slide_rolling_to_west`: `for j in 1..cols { for i in 0..rows { … } }`. -/
def slide_rolling_to_west (g : Platform) : Platform :=
  (List.range' 1 (g.cols - 1)).foldl (fun acc j =>
    (List.range g.rows).foldl (fun acc2 i => slideRowStep destWest acc2 i j) acc) g

/-- `fn slide_rolling_to_east`: `for j in (0..(cols - 1)).rev() { for i in 0..rows { … } }`. -/
def slide_rolling_to_east (g : Platform) : Platform :=
  (List.range (g.cols - 1)).reverse.foldl (fun acc j =>
    (List.range g.rows).foldl (fun acc2 i => slideRowStep destEast acc2 i j) acc) g

/-- `fn spin_cycle`: north, then west, then south, then east. -/
def spin_cycle (g : Platform) : Platform :=
  (((g.slide_rolling_to_north).slide_rolling_to_west).slide_rolling_to_south).slide_rolling_to_east

/-- `fn load_on_north_beam`: rows are weighted from the bottom
(`.rev().zip(1..)`), each contributing `weight * #RollingRock`. -/
def load_on_north_beam (g : Platform) : Nat :=
  ((g.reverse.zip (List.range' 1 g.length)).map
    (fun rw => rw.2 * rw.1.countP (fun c => c = PlatformCell.RollingRock))).sum

end Platform

/-! ## Day 14: the tortoise-and-hare cycle detection of `solve_part_2`

The three `while` loops of `fn solve_part_2` are embedded with an
explicit fuel parameter bounding the number of iterations; `none` means
the fuel ran out.  The generic functions work over any type with
decidable equality and any step function `f`, and are instantiated at
`Platform.spin_cycle`. -/

/-- Phase 1 (do-while): `turtoise.spin_cycle(); hare.spin_cycle();
hare.spin_cycle(); while turtoise != hare { … }`.  Returns the common
meeting state. -/
def floydMeet {α : Type} [DecidableEq α] (f : α → α) :
    Nat → α → α → Option α
  | 0, _, _ => none
  | fuel + 1, t, h =>
    let t' := f t
    let h' := f (f h)
    if t' = h' then some t' else floydMeet f fuel t' h'

/-- Phase 2 (while): `while turtoise != self { turtoise.spin_cycle();
self.spin_cycle(); cycle_start += 1 }`.  Returns `cycle_start` and the
common state at the loop's exit. -/
def findCycleStart {α : Type} [DecidableEq α] (f : α → α) :
    Nat → α → α → Option (Nat × α)
  | 0, t, s => if t = s then some (0, t) else none
  | fuel + 1, t, s =>
    if t = s then some (0, t)
    else (findCycleStart f fuel (f t) (f s)).map (fun p => (p.1 + 1, p.2))

/-- Phase 3 (while): `cycle_length = 1; turtoise.spin_cycle();
while turtoise != self { turtoise.spin_cycle(); cycle_length += 1 }`.
`s` is the stationary `self`, `c` the advancing `turtoise`. -/
def findCycleLen {α : Type} [DecidableEq α] (f : α → α) (s : α) :
    Nat → α → Option Nat
  | 0, c => if c = s then some 1 else none
  | fuel + 1, c =>
    if c = s then some 1
    else (findCycleLen f s fuel (f c)).map (fun n => n + 1)

/-- `const PART_2_SPIN_COUNT: u64 = 1_000_000_000`. -/
def PART_2_SPIN_COUNT : Nat := 1000000000

namespace Platform

/-- `fn solve_part_2`, additionally returning the intermediate values it
prints: `(cycle_start, cycle_length, remaining_spins, answer)`.  The
`u64` subtraction `PART_2_SPIN_COUNT - cycle_start` panics on underflow,
modelled by the `cycle_start ≤ PART_2_SPIN_COUNT` guard. -/
def solve_part_2_full (fuel : Nat) (g : Platform) :
    Option (Nat × Nat × Nat × Nat) :=
  match floydMeet spin_cycle fuel g g with
  | none => none
  | some meet =>
    match findCycleStart spin_cycle fuel meet g with
    | none => none
    | some (cycleStart, m) =>
      match findCycleLen spin_cycle m fuel (spin_cycle m) with
      | none => none
      | some cycleLength =>
        if cycleStart ≤ PART_2_SPIN_COUNT then
          let remaining := (PART_2_SPIN_COUNT - cycleStart) % cycleLength
          some (cycleStart, cycleLength, remaining,
            load_on_north_beam (spin_cycle^[remaining] m))
        else none

/-- The value returned by `fn solve_part_2` (the final
`turtoise.load_on_north_beam()`). -/
def solve_part_2 (fuel : Nat) (g : Platform) : Option Nat :=
  (solve_part_2_full fuel g).map (fun q => q.2.2.2)

end Platform

/-! ### Correctness of the three loop phases -/

theorem floydMeet_spec {α : Type} [DecidableEq α] (f : α → α) :
    ∀ (fuel : Nat) (t h m : α), floydMeet f fuel t h = some m →
      ∃ n, 1 ≤ n ∧ m = f^[n] t := by
  intro fuel
  induction fuel with
  | zero => intro t h m hm; simp [floydMeet] at hm
  | succ fuel ih =>
    intro t h m hm
    simp only [floydMeet] at hm
    by_cases hc : f t = f (f h)
    · rw [if_pos hc] at hm
      exact ⟨1, le_refl 1, by simpa using hm.symm⟩
    · rw [if_neg hc] at hm
      obtain ⟨n, hn1, hn⟩ := ih (f t) (f (f h)) m hm
      exact ⟨n + 1, Nat.le_add_left 1 n,
        by rw [hn, ← Function.iterate_succ_apply]⟩

theorem findCycleStart_spec {α : Type} [DecidableEq α] (f : α → α) :
    ∀ (fuel : Nat) (t s : α) (j : Nat) (m : α),
      findCycleStart f fuel t s = some (j, m) →
      m = f^[j] t ∧ f^[j] t = f^[j] s := by
  intro fuel
  induction fuel with
  | zero =>
    intro t s j m hm
    simp only [findCycleStart] at hm
    by_cases hc : t = s
    · rw [if_pos hc] at hm
      injection hm with hm
      injection hm with hj hmt
      subst hj; subst hmt; simpa using hc
    · rw [if_neg hc] at hm; exact absurd hm (by simp)
  | succ fuel ih =>
    intro t s j m hm
    simp only [findCycleStart] at hm
    by_cases hc : t = s
    · rw [if_pos hc] at hm
      injection hm with hm
      injection hm with hj hmt
      subst hj; subst hmt; simpa using hc
    · rw [if_neg hc, Option.map_eq_some'] at hm
      obtain ⟨⟨j', m'⟩, hinner, heq⟩ := hm
      simp only [] at heq
      injection heq with hj hmm
      subst hj; subst hmm
      obtain ⟨h1, h2⟩ := ih (f t) (f s) j' m' hinner
      constructor
      · rw [h1, ← Function.iterate_succ_apply]
      · rw [Function.iterate_succ_apply, Function.iterate_succ_apply]
        exact h2

theorem findCycleLen_spec {α : Type} [DecidableEq α] (f : α → α) (s : α) :
    ∀ (fuel : Nat) (c : α) (l : Nat), findCycleLen f s fuel c = some l →
      ∃ k, l = k + 1 ∧ f^[k] c = s := by
  intro fuel
  induction fuel with
  | zero =>
    intro c l hl
    simp only [findCycleLen] at hl
    by_cases hc : c = s
    · rw [if_pos hc] at hl
      exact ⟨0, by simpa using hl.symm, by simpa using hc⟩
    · rw [if_neg hc] at hl; exact absurd hl (by simp)
  | succ fuel ih =>
    intro c l hl
    simp only [findCycleLen] at hl
    by_cases hc : c = s
    · rw [if_pos hc] at hl
      exact ⟨0, by simpa using hl.symm, by simpa using hc⟩
    · rw [if_neg hc, Option.map_eq_some'] at hl
      obtain ⟨l', hinner, heq⟩ := hl
      obtain ⟨k, hk1, hk2⟩ := ih (f c) l' hinner
      refine ⟨k + 1, by omega, ?_⟩
      rw [Function.iterate_succ_apply]
      exact hk2

/-- If `f` has period `l` from step `j` on, iterates past `j` may be
reduced modulo `l`. -/
theorem iterate_period_extend {α : Type} (f : α → α) (x : α) (j l : Nat)
    (h : f^[j + l] x = f^[j] x) :
    ∀ (q r : Nat), f^[j + (l * q + r)] x = f^[j + r] x := by
  intro q
  induction q with
  | zero => intro r; simp
  | succ q ih =>
    intro r
    have h1 : j + (l * (q + 1) + r) = (l * q + r) + (j + l) := by ring
    have h2 : (l * q + r) + j = j + (l * q + r) := by ring
    rw [h1, Function.iterate_add_apply, h, ← Function.iterate_add_apply, h2]
    exact ih r

theorem iterate_mod_cycle {α : Type} (f : α → α) (x : α) (j l N : Nat)
    (h : f^[j + l] x = f^[j] x) (hjN : j ≤ N) :
    f^[N] x = f^[j + (N - j) % l] x := by
  have hN : N = j + (l * ((N - j) / l) + (N - j) % l) := by
    rw [Nat.div_add_mod]; omega
  conv_lhs => rw [hN]
  rw [iterate_period_extend f x j l h]

/-- C2: whenever the tortoise-and-hare `solve_part_2` terminates (its
loops run within the given fuel), its result equals the naive
computation: spin the parsed platform `1_000_000_000` times and take
`load_on_north_beam`. -/
theorem solve_part_2_eq_naive (fuel : Nat) (g : Platform) (v : Nat)
    (h : Platform.solve_part_2 fuel g = some v) :
    v = Platform.load_on_north_beam
      (Platform.spin_cycle^[PART_2_SPIN_COUNT] g) := by
  rw [Platform.solve_part_2, Option.map_eq_some'] at h
  obtain ⟨⟨cs, cl, rem, ans⟩, hfull, hv⟩ := h
  simp only [] at hv
  rw [Platform.solve_part_2_full] at hfull
  split at hfull
  · exact absurd hfull (by simp)
  next meet hmeet =>
    split at hfull
    · exact absurd hfull (by simp)
    next j m hstart =>
      split at hfull
      · exact absurd hfull (by simp)
      next l hlen =>
        split at hfull
        case isFalse => exact absurd hfull (by simp)
        case isTrue hguard =>
          injection hfull with hfull
          injection hfull with hcs hfull
          injection hfull with hcl hfull
          injection hfull with hrem hans
          subst hcs
          -- facts from the three phases
          obtain ⟨hm1, hm2⟩ :=
            findCycleStart_spec Platform.spin_cycle fuel meet g j m hstart
          obtain ⟨k, hk1, hk2⟩ :=
            findCycleLen_spec Platform.spin_cycle m fuel
              (Platform.spin_cycle m) l hlen
          -- `m` is the `j`-th iterate of the start state
          have hmg : m = Platform.spin_cycle^[j] g := by
            rw [hm1, hm2]
          -- period: `f^[j + l] g = f^[j] g`
          have hper : Platform.spin_cycle^[j + l] g
              = Platform.spin_cycle^[j] g := by
            have hlm : Platform.spin_cycle^[l] m = m := by
              rw [hk1, Function.iterate_succ_apply]
              exact hk2
            calc Platform.spin_cycle^[j + l] g
                = Platform.spin_cycle^[l + j] g := by rw [Nat.add_comm]
              _ = Platform.spin_cycle^[l] (Platform.spin_cycle^[j] g) :=
                  Function.iterate_add_apply ..
              _ = Platform.spin_cycle^[l] m := by rw [← hmg]
              _ = m := hlm
              _ = Platform.spin_cycle^[j] g := hmg
          -- reduce the naive iterate modulo the cycle
          subst hcl
          rw [← hv, ← hans, hmg, ← Function.iterate_add_apply,
            iterate_mod_cycle Platform.spin_cycle g j l PART_2_SPIN_COUNT
              hper hguard]
          rw [Nat.add_comm]

/-- Witness for `solve_part_2_eq_naive`: on the one-cell platform `[[O]]`
the algorithm terminates with fuel 1 and returns 1, so one billion spins
of that platform also load to 1. -/
theorem solve_part_2_eq_naive_witness :
    1 = Platform.load_on_north_beam
      (Platform.spin_cycle^[PART_2_SPIN_COUNT] [[PlatformCell.RollingRock]]) :=
  solve_part_2_eq_naive 1 [[PlatformCell.RollingRock]] 1 (by decide)

/-! ### C9: invariants of the slide operations

Generic list helpers about `List.set`, then the pointwise and counting
effects of moving one rock. -/

theorem getD_set {α : Type} (l : List α) (i n : Nat) (a d : α) :
    (l.set i a).getD n d = if i = n ∧ i < l.length then a else l.getD n d := by
  induction l generalizing i n with
  | nil => simp
  | cons x xs ih =>
    cases i with
    | zero =>
      cases n with
      | zero => simp
      | succ n => simp
    | succ i =>
      cases n with
      | zero => simp
      | succ n =>
        simp only [List.set, List.getD_cons_succ, List.length_cons, ih]
        have hiff : (i + 1 = n + 1 ∧ i + 1 < xs.length + 1)
            ↔ (i = n ∧ i < xs.length) := by omega
        simp only [hiff]

theorem countP_set {α : Type} (l : List α) (p : α → Bool) (i : Nat)
    (a d : α) (h : i < l.length) :
    (l.set i a).countP p + (if p (l.getD i d) then 1 else 0)
      = l.countP p + (if p a then 1 else 0) := by
  induction l generalizing i with
  | nil => simp at h
  | cons x xs ih =>
    cases i with
    | zero => simp [List.countP_cons]; omega
    | succ i =>
      simp only [List.set, List.countP_cons, List.getD_cons_succ]
      have := ih i (by simpa using h)
      omega

theorem sum_map_set {α : Type} (g : List α) (f : α → Nat) (i : Nat)
    (r d : α) (h : i < g.length) :
    ((g.set i r).map f).sum + f (g.getD i d) = (g.map f).sum + f r := by
  induction g generalizing i with
  | nil => simp at h
  | cons x xs ih =>
    cases i with
    | zero => simp; omega
    | succ i =>
      simp only [List.set, List.map_cons, List.sum_cons, List.getD_cons_succ]
      have := ih i (by simpa using h)
      omega

namespace Platform

/-- All rows have the width of the first row (`self.grid[0].len()`);
this is what every in-range Rust index access relies on. -/
def Rectangular (g : Platform) : Prop :=
  ∀ r ∈ g, r.length = (g.headD []).length

instance (g : Platform) : Decidable (Rectangular g) := by
  unfold Rectangular; infer_instance

/-- Total number of `RollingRock` cells of the grid. -/
def rollingCount (g : Platform) : Nat :=
  (g.map (fun row => row.countP (fun c => c = PlatformCell.RollingRock))).sum

/-- A cell that reads as something other than `Empty` is in range (out
of range reads default to `Empty`). -/
theorem bounds_of_getCell_ne_empty (g : Platform) (i j : Nat)
    (h : getCell g i j ≠ PlatformCell.Empty) :
    i < g.length ∧ j < (g.getD i []).length := by
  by_cases hi : i < g.length
  · refine ⟨hi, ?_⟩
    by_cases hj : j < (g.getD i []).length
    · exact hj
    · exact absurd (by
        simp only [getCell]
        exact List.getD_eq_default _ _ (Nat.le_of_not_lt hj)) h
  · exact absurd (by
      simp only [getCell]
      rw [List.getD_eq_default _ _ (Nat.le_of_not_lt hi)]
      simp) h

theorem getCell_setCell (g : Platform) (i j : Nat) (c : PlatformCell)
    (p q : Nat) (hi : i < g.length) (hj : j < (g.getD i []).length) :
    getCell (setCell g i j c) p q
      = if i = p ∧ j = q then c else getCell g p q := by
  simp only [getCell, setCell]
  rw [show (g.set i ((g.getD i []).set j c)).getD p []
      = if i = p ∧ i < g.length then (g.getD i []).set j c else g.getD p []
    from getD_set ..]
  by_cases hip : i = p
  · subst hip
    rw [if_pos ⟨rfl, hi⟩, getD_set]
    by_cases hjq : j = q
    · subst hjq
      rw [if_pos ⟨rfl, hj⟩, if_pos ⟨rfl, rfl⟩]
    · simp [hjq]
  · simp [hip]

/-- The invariant of C9 relating a platform to the result of a slide:
same row lengths, same number of rolling rocks, stationary rocks
exactly in place, and new rolling rocks only where the old grid was
empty. -/
structure Inv (g g' : Platform) : Prop where
  shape : g'.map List.length = g.map List.length
  count : rollingCount g' = rollingCount g
  stat : ∀ i j, getCell g' i j = PlatformCell.StationaryRock
    ↔ getCell g i j = PlatformCell.StationaryRock
  intoEmpty : ∀ i j, getCell g' i j = PlatformCell.RollingRock →
    getCell g i j ≠ PlatformCell.RollingRock →
    getCell g i j = PlatformCell.Empty

theorem Inv.same (g : Platform) : Inv g g :=
  ⟨Eq.refl _, Eq.refl _, fun _ _ => Iff.rfl, fun _ _ h h' => absurd h h'⟩

theorem Inv.trans {g g1 g2 : Platform} (a : Inv g g1) (b : Inv g1 g2) :
    Inv g g2 := by
  refine ⟨b.shape.trans a.shape, b.count.trans a.count,
    fun i j => (b.stat i j).trans (a.stat i j), fun i j h2 h0 => ?_⟩
  cases hc : getCell g1 i j with
  | RollingRock => exact a.intoEmpty i j hc h0
  | StationaryRock => exact absurd ((b.stat i j).mpr hc) (by rw [h2]; simp)
  | Empty =>
    cases hcg : getCell g i j with
    | RollingRock => exact absurd hcg h0
    | StationaryRock => exact absurd ((a.stat i j).mpr hcg) (by rw [hc]; simp)
    | Empty => rfl

/-- Rectangularity only depends on the shape. -/
theorem rectangular_of_shape_eq {g g' : Platform}
    (h : g'.map List.length = g.map List.length) (hg : Rectangular g) :
    Rectangular g' := by
  intro r hr
  cases g' with
  | nil => simp at hr
  | cons r0 rest =>
    cases g with
    | nil => simp at h
    | cons s0 srest =>
      simp only [List.map_cons, List.cons.injEq] at h
      have hmem : r.length ∈ (r0 :: rest).map List.length := List.mem_map_of_mem _ hr
      rw [List.map_cons, h.1, h.2] at hmem
      simp only [List.headD_cons]
      rcases List.mem_cons.mp hmem with h1 | h1
      · rw [h1, h.1]
      · obtain ⟨s, hs, hlen⟩ := List.mem_map.mp h1
        rw [← hlen, hg s (List.mem_cons_of_mem _ hs), h.1]
        simp

/-- Shape is unchanged by `setCell`. -/
theorem shape_setCell (g : Platform) (i j : Nat) (c : PlatformCell) :
    (setCell g i j c).map List.length = g.map List.length := by
  unfold setCell
  rw [List.map_set, List.length_set]
  by_cases hi : i < g.length
  · apply List.ext_getElem (by simp)
    intro n h1 h2
    rw [List.getElem_set]
    split
    · next hin =>
      subst hin
      rw [List.getElem_map, List.getD_eq_getElem?_getD,
        List.getElem?_eq_getElem hi, Option.getD_some]
    · rfl
  · rw [List.set_eq_of_length_le (by simpa using Nat.le_of_not_lt hi)]

/-- Effect of one `setCell` on the rolling-rock count. -/
theorem rollingCount_setCell (g : Platform) (i j : Nat) (c : PlatformCell)
    (hi : i < g.length) (hj : j < (g.getD i []).length) :
    rollingCount (setCell g i j c)
      + (if getCell g i j = PlatformCell.RollingRock then 1 else 0)
    = rollingCount g + (if c = PlatformCell.RollingRock then 1 else 0) := by
  unfold rollingCount setCell getCell
  have hsum := sum_map_set g
    (fun row => row.countP (fun x => x = PlatformCell.RollingRock)) i
    ((g.getD i []).set j c) [] hi
  have hcnt := countP_set (g.getD i [])
    (fun x => x = PlatformCell.RollingRock) j c PlatformCell.Empty hj
  simp only [] at hsum hcnt
  simp only [decide_eq_true_eq] at hcnt
  omega

/-- Moving one rolling rock from in-range cell `(i, j)` to in-range
empty cell `(k, l)` preserves the C9 invariant. -/
theorem Inv.move (g : Platform) (i j k l : Nat)
    (hne : ¬(k = i ∧ l = j))
    (hrock : getCell g i j = PlatformCell.RollingRock)
    (hemp : getCell g k l = PlatformCell.Empty)
    (hk : k < g.length) (hl : l < (g.getD k []).length) :
    Inv g ((g.setCell k l PlatformCell.RollingRock).setCell i j
      PlatformCell.Empty) := by
  obtain ⟨hi, hj⟩ := bounds_of_getCell_ne_empty g i j (by rw [hrock]; simp)
  have hshape1 : (g.setCell k l PlatformCell.RollingRock).map List.length
      = g.map List.length := shape_setCell ..
  have hlen1 : (g.setCell k l PlatformCell.RollingRock).length = g.length := by
    have := congrArg List.length hshape1
    simpa using this
  have hi1 : i < (g.setCell k l PlatformCell.RollingRock).length := by
    rw [hlen1]; exact hi
  have hrow1 : ((g.setCell k l PlatformCell.RollingRock).getD i []).length
      = (g.getD i []).length := by
    rw [setCell, getD_set]
    by_cases hki : k = i
    · subst hki
      rw [if_pos ⟨rfl, hk⟩, List.length_set]
    · rw [if_neg (fun hc => hki hc.1)]
  have hj1 : j < ((g.setCell k l PlatformCell.RollingRock).getD i []).length := by
    rw [hrow1]; exact hj
  have hcell1 : getCell (g.setCell k l PlatformCell.RollingRock) i j
      = PlatformCell.RollingRock := by
    rw [getCell_setCell g k l _ i j hk hl, if_neg hne, hrock]
  -- pointwise description of the two-set result
  have hpt : ∀ p q,
      getCell ((g.setCell k l PlatformCell.RollingRock).setCell i j
        PlatformCell.Empty) p q
      = if i = p ∧ j = q then PlatformCell.Empty
        else if k = p ∧ l = q then PlatformCell.RollingRock
        else getCell g p q := by
    intro p q
    rw [getCell_setCell _ i j PlatformCell.Empty p q hi1 hj1]
    by_cases hc : i = p ∧ j = q
    · rw [if_pos hc, if_pos hc]
    · rw [if_neg hc, if_neg hc, getCell_setCell g k l _ p q hk hl]
  refine ⟨(shape_setCell ..).trans hshape1, ?_, ?_, ?_⟩
  · -- rolling-rock count is preserved: +1 at `(k, l)`, then -1 at `(i, j)`
    have h1 := rollingCount_setCell g k l PlatformCell.RollingRock hk hl
    rw [hemp] at h1
    have h2 := rollingCount_setCell (g.setCell k l PlatformCell.RollingRock)
      i j PlatformCell.Empty hi1 hj1
    rw [hcell1] at h2
    simp only [if_pos rfl] at h1 h2
    simp only [show ¬(PlatformCell.Empty = PlatformCell.RollingRock) by simp,
      if_false] at h1 h2
    omega
  · intro p q
    rw [hpt p q]
    by_cases hc1 : i = p ∧ j = q
    · rw [if_pos hc1]
      constructor
      · intro h; exact absurd h (by simp)
      · intro h
        rw [← hc1.1, ← hc1.2] at h
        rw [hrock] at h
        exact absurd h (by simp)
    · rw [if_neg hc1]
      by_cases hc2 : k = p ∧ l = q
      · rw [if_pos hc2]
        constructor
        · intro h; exact absurd h (by simp)
        · intro h
          rw [← hc2.1, ← hc2.2] at h
          rw [hemp] at h
          exact absurd h (by simp)
      · rw [if_neg hc2]
  · intro p q
    rw [hpt p q]
    by_cases hc1 : i = p ∧ j = q
    · rw [if_pos hc1]
      intro h; exact absurd h (by simp)
    · rw [if_neg hc1]
      by_cases hc2 : k = p ∧ l = q
      · rw [if_pos hc2]
        intro _ _
        rw [← hc2.1, ← hc2.2]
        exact hemp
      · rw [if_neg hc2]
        intro h h'
        exact absurd h h'

theorem mem_of_getLast?_eq_some {α : Type} {l : List α} {a : α}
    (h : l.getLast? = some a) : a ∈ l :=
  List.mem_of_mem_getLast? (by rw [Option.mem_def]; exact h)

theorem getD_mem {α : Type} (l : List α) (n : Nat) (d : α)
    (h : n < l.length) : l.getD n d ∈ l := by
  rw [List.getD_eq_getElem?_getD, List.getElem?_eq_getElem h, Option.getD_some]
  exact List.getElem_mem ..

theorem destNorth_spec (g : Platform) (i j k : Nat)
    (h : destNorth g i j = some k) :
    getCell g k j = PlatformCell.Empty ∧ k ≠ i ∧
      (i < g.length → k < g.length) := by
  unfold destNorth at h
  have hmem := mem_of_getLast?_eq_some h
  have hpred := List.mem_takeWhile_imp hmem
  have hbase := (List.takeWhile_sublist _).subset hmem
  rw [List.mem_reverse, List.mem_range] at hbase
  exact ⟨by simpa using hpred, by omega, by omega⟩

theorem destSouth_spec (g : Platform) (i j k : Nat)
    (h : destSouth g i j = some k) :
    getCell g k j = PlatformCell.Empty ∧ k ≠ i ∧
      (i < g.length → k < g.length) := by
  unfold destSouth at h
  have hmem := mem_of_getLast?_eq_some h
  have hpred := List.mem_takeWhile_imp hmem
  have hbase := (List.takeWhile_sublist _).subset hmem
  rw [List.mem_range'_1] at hbase
  unfold rows at hbase
  exact ⟨by simpa using hpred, by omega, by omega⟩

theorem destWest_spec (g : Platform) (i j k : Nat)
    (h : destWest g i j = some k) :
    getCell g i k = PlatformCell.Empty ∧ k ≠ j ∧
      (j < (g.headD []).length → k < (g.headD []).length) := by
  unfold destWest at h
  have hmem := mem_of_getLast?_eq_some h
  have hpred := List.mem_takeWhile_imp hmem
  have hbase := (List.takeWhile_sublist _).subset hmem
  rw [List.mem_reverse, List.mem_range] at hbase
  exact ⟨by simpa using hpred, by omega, by omega⟩

theorem destEast_spec (g : Platform) (i j k : Nat)
    (h : destEast g i j = some k) :
    getCell g i k = PlatformCell.Empty ∧ k ≠ j ∧
      (j < (g.headD []).length → k < (g.headD []).length) := by
  unfold destEast at h
  have hmem := mem_of_getLast?_eq_some h
  have hpred := List.mem_takeWhile_imp hmem
  have hbase := (List.takeWhile_sublist _).subset hmem
  rw [List.mem_range'_1] at hbase
  unfold cols at hbase
  exact ⟨by simpa using hpred, by omega, by omega⟩

theorem slideColStep_inv (dest : Platform → Nat → Nat → Option Nat)
    (hdest : ∀ (g : Platform) (i j k : Nat), dest g i j = some k →
      getCell g k j = PlatformCell.Empty ∧ k ≠ i ∧
        (i < g.length → k < g.length))
    (g : Platform) (i j : Nat) (hrect : Rectangular g) :
    Inv g (slideColStep dest g i j) := by
  unfold slideColStep
  by_cases hrock : getCell g i j = PlatformCell.RollingRock
  · rw [if_pos hrock]
    cases hd : dest g i j with
    | none => exact Inv.same g
    | some k =>
      obtain ⟨hemp, hki, hkb⟩ := hdest g i j k hd
      obtain ⟨hi, hj⟩ := bounds_of_getCell_ne_empty g i j (by rw [hrock]; simp)
      have hk : k < g.length := hkb hi
      have hjk : j < (g.getD k []).length := by
        rw [hrect _ (getD_mem g k [] hk), ← hrect _ (getD_mem g i [] hi)]
        exact hj
      exact Inv.move g i j k j (fun hc => hki hc.1) hrock hemp hk hjk
  · rw [if_neg hrock]
    exact Inv.same g

theorem slideRowStep_inv (dest : Platform → Nat → Nat → Option Nat)
    (hdest : ∀ (g : Platform) (i j k : Nat), dest g i j = some k →
      getCell g i k = PlatformCell.Empty ∧ k ≠ j ∧
        (j < (g.headD []).length → k < (g.headD []).length))
    (g : Platform) (i j : Nat) (hrect : Rectangular g) :
    Inv g (slideRowStep dest g i j) := by
  unfold slideRowStep
  by_cases hrock : getCell g i j = PlatformCell.RollingRock
  · rw [if_pos hrock]
    cases hd : dest g i j with
    | none => exact Inv.same g
    | some k =>
      obtain ⟨hemp, hkj, hkb⟩ := hdest g i j k hd
      obtain ⟨hi, hj⟩ := bounds_of_getCell_ne_empty g i j (by rw [hrock]; simp)
      have hk : k < (g.getD i []).length := by
        rw [hrect _ (getD_mem g i [] hi)]
        exact hkb (by rw [← hrect _ (getD_mem g i [] hi)]; exact hj)
      exact Inv.move g i j i k (fun hc => hkj hc.2) hrock hemp hi hk
  · rw [if_neg hrock]
    exact Inv.same g

theorem foldl_inv {β : Type} (step : Platform → β → Platform)
    (hstep : ∀ g b, Rectangular g → Inv g (step g b)) :
    ∀ (l : List β) (g : Platform), Rectangular g → Inv g (l.foldl step g) := by
  intro l
  induction l with
  | nil => intro g _; exact Inv.same g
  | cons b bs ih =>
    intro g hg
    rw [List.foldl_cons]
    have h1 := hstep g b hg
    exact h1.trans (ih (step g b) (rectangular_of_shape_eq h1.shape hg))

theorem slide_rolling_to_north_inv (g : Platform) (hrect : Rectangular g) :
    Inv g (slide_rolling_to_north g) :=
  foldl_inv _
    (fun acc i hacc => foldl_inv _
      (fun acc2 j hacc2 => slideColStep_inv destNorth destNorth_spec acc2 i j hacc2)
      _ acc hacc)
    _ g hrect

theorem slide_rolling_to_south_inv (g : Platform) (hrect : Rectangular g) :
    Inv g (slide_rolling_to_south g) :=
  foldl_inv _
    (fun acc i hacc => foldl_inv _
      (fun acc2 j hacc2 => slideColStep_inv destSouth destSouth_spec acc2 i j hacc2)
      _ acc hacc)
    _ g hrect

theorem slide_rolling_to_west_inv (g : Platform) (hrect : Rectangular g) :
    Inv g (slide_rolling_to_west g) :=
  foldl_inv _
    (fun acc j hacc => foldl_inv _
      (fun acc2 i hacc2 => slideRowStep_inv destWest destWest_spec acc2 i j hacc2)
      _ acc hacc)
    _ g hrect

theorem slide_rolling_to_east_inv (g : Platform) (hrect : Rectangular g) :
    Inv g (slide_rolling_to_east g) :=
  foldl_inv _
    (fun acc j hacc => foldl_inv _
      (fun acc2 i hacc2 => slideRowStep_inv destEast destEast_spec acc2 i j hacc2)
      _ acc hacc)
    _ g hrect

theorem spin_cycle_inv (g : Platform) (hrect : Rectangular g) :
    Inv g (spin_cycle g) := by
  unfold spin_cycle
  have h1 := slide_rolling_to_north_inv g hrect
  have r1 := rectangular_of_shape_eq h1.shape hrect
  have h2 := slide_rolling_to_west_inv _ r1
  have r2 := rectangular_of_shape_eq h2.shape r1
  have h3 := slide_rolling_to_south_inv _ r2
  have r3 := rectangular_of_shape_eq h3.shape r2
  have h4 := slide_rolling_to_east_inv _ r3
  exact ((h1.trans h2).trans h3).trans h4

end Platform

/-- The five grid operations of day 14's `impl Platform` that rearrange
rocks. -/
def day14Ops : List (Platform → Platform) :=
  [Platform.spin_cycle, Platform.slide_rolling_to_north,
   Platform.slide_rolling_to_south, Platform.slide_rolling_to_east,
   Platform.slide_rolling_to_west]

/-- C9: every day-14 platform operation (`spin_cycle` and the four
slides), on a rectangular grid, preserves the grid's dimensions (the
list of row lengths), the total number of `RollingRock` cells, and the
exact positions of all `StationaryRock` cells, and rolling rocks appear
only in cells that were previously `Empty`. -/
theorem day14_ops_preserve_invariants :
    ∀ op ∈ day14Ops, ∀ g : Platform, Platform.Rectangular g →
      (op g).map List.length = g.map List.length ∧
      Platform.rollingCount (op g) = Platform.rollingCount g ∧
      (∀ i j, Platform.getCell (op g) i j = PlatformCell.StationaryRock
        ↔ Platform.getCell g i j = PlatformCell.StationaryRock) ∧
      (∀ i j, Platform.getCell (op g) i j = PlatformCell.RollingRock →
        Platform.getCell g i j ≠ PlatformCell.RollingRock →
        Platform.getCell g i j = PlatformCell.Empty) := by
  intro op hop g hg
  have hinv : Platform.Inv g (op g) := by
    simp only [day14Ops, List.mem_cons, List.not_mem_nil, or_false] at hop
    rcases hop with h | h | h | h | h <;> subst h
    · exact Platform.spin_cycle_inv g hg
    · exact Platform.slide_rolling_to_north_inv g hg
    · exact Platform.slide_rolling_to_south_inv g hg
    · exact Platform.slide_rolling_to_east_inv g hg
    · exact Platform.slide_rolling_to_west_inv g hg
  exact ⟨hinv.shape, hinv.count, hinv.stat, hinv.intoEmpty⟩

/-- Witness for `day14_ops_preserve_invariants`: applied to `spin_cycle`
on a concrete 2×2 rectangular grid. -/
theorem day14_ops_preserve_invariants_witness :
    (Platform.spin_cycle
        [[PlatformCell.RollingRock, PlatformCell.Empty],
         [PlatformCell.StationaryRock, PlatformCell.Empty]]).map List.length
      = [[PlatformCell.RollingRock, PlatformCell.Empty],
         [PlatformCell.StationaryRock, PlatformCell.Empty]].map List.length ∧
    Platform.rollingCount (Platform.spin_cycle
        [[PlatformCell.RollingRock, PlatformCell.Empty],
         [PlatformCell.StationaryRock, PlatformCell.Empty]])
      = Platform.rollingCount
        [[PlatformCell.RollingRock, PlatformCell.Empty],
         [PlatformCell.StationaryRock, PlatformCell.Empty]] :=
  have h := day14_ops_preserve_invariants Platform.spin_cycle
    (by simp [day14Ops])
    [[PlatformCell.RollingRock, PlatformCell.Empty],
     [PlatformCell.StationaryRock, PlatformCell.Empty]]
    (by decide)
  ⟨h.1, h.2.1⟩

/-! ## Day 12: spring arrangements

Transcribed from `src/day12/src/main.rs`. -/

/-- `enum SpringState { Operational, Broken, Unknown }`. -/
inductive SpringState where
  | Operational
  | Broken
  | Unknown
deriving DecidableEq, Repr

/-- `struct SpringLine { states: Box<[SpringState]>, damaged_groups: Box<[usize]> }`. -/
structure SpringLine where
  states : List SpringState
  damaged_groups : List Nat
deriving DecidableEq, Repr

/-- Rust's `slice::get(i..)`: `some` of the suffix when `i ≤ len`
(including the empty suffix at `i = len`), `none` beyond. -/
def sliceFrom {α : Type} (l : List α) (i : Nat) : Option (List α) :=
  if i ≤ l.length then some (l.drop i) else none

/-- Rust's `Iterator::position`: index of the first element satisfying
`p`. -/
def position {α : Type} (p : α → Bool) : List α → Option Nat
  | [] => none
  | x :: xs => if p x then some 0 else (position p xs).map (fun n => n + 1)

theorem sliceFrom_some {α : Type} {l : List α} {i : Nat} {s : List α}
    (h : sliceFrom l i = some s) : i ≤ l.length ∧ s = l.drop i := by
  unfold sliceFrom at h
  split at h
  · exact ⟨by assumption, by injection h with h; exact h.symm⟩
  · exact absurd h (by simp)

theorem position_some_lt {α : Type} {p : α → Bool} {l : List α} {n : Nat}
    (h : position p l = some n) : n < l.length := by
  induction l generalizing n with
  | nil => simp [position] at h
  | cons x xs ih =>
    unfold position at h
    split at h
    · injection h with h
      simp only [List.length_cons]
      omega
    · rw [Option.map_eq_some'] at h
      obtain ⟨m, hm, hmn⟩ := h
      have := ih hm
      simp only [List.length_cons]
      omega

namespace SpringLine

/-- `fn count_arrangements_recursive(&self, state_pos, group_pos)`:
the group-skipping recursion of day 12. -/
def count_arrangements_recursive (line : SpringLine)
    (statePos groupPos : Nat) : Nat :=
  match h1 : sliceFrom line.states statePos with
  | none => if (line.damaged_groups.get? groupPos).isNone then 1 else 0
  | some states =>
    match line.damaged_groups.get? groupPos with
    | none => if states.any (fun s => s = SpringState.Broken) then 0 else 1
    | some group =>
      match h2 : position (fun s => !(decide (s = SpringState.Operational))) states with
      | none => 0
      | some first =>
        let states2 := states.drop first
        if states2.length < group then 0
        else
          let result :=
            if (states2.take group).any (fun s => s = SpringState.Operational) then 0
            else if (states2.get? group).elim false
                (fun s => decide (s = SpringState.Broken)) then 0
            else count_arrangements_recursive line
              (statePos + first + group + 1) (groupPos + 1)
          if states2.head? = some SpringState.Broken then result
          else result + count_arrangements_recursive line
            (statePos + first + 1) groupPos
termination_by line.states.length + 1 - statePos
decreasing_by
  · have hs := sliceFrom_some h1
    omega
  · have hs := sliceFrom_some h1
    omega

/-- `fn count_arrangements(&self)`. -/
def count_arrangements (line : SpringLine) : Nat :=
  line.count_arrangements_recursive 0 0

/-- The loop body state of `fn _check_data_matching`: remaining states,
`current_group`, `damaged_streak`, `was_last_broken`. -/
def checkAux (groups : List Nat) : List SpringState → Nat → Nat → Bool → Bool
  | [], currentGroup, streak, wasLast =>
    if wasLast then
      match groups.get? currentGroup with
      | some group => decide (currentGroup + 1 = groups.length) && decide (group = streak)
      | none => false
    else decide (groups.length = currentGroup)
  | s :: rest, currentGroup, streak, wasLast =>
    match s with
    | SpringState.Broken =>
      match groups.get? currentGroup with
      | some group =>
        if group < streak + 1 then false
        else checkAux groups rest currentGroup (streak + 1) true
      | none => false
    | _ =>
      if streak ≠ 0 then
        match groups.get? currentGroup with
        | some group =>
          if streak ≠ group then false
          else checkAux groups rest (currentGroup + 1) 0 false
        | none => false
      else checkAux groups rest currentGroup 0 false

/-- `fn _check_data_matching(&self)`. -/
def check_data_matching (line : SpringLine) : Bool :=
  checkAux line.damaged_groups line.states 0 0 false

end SpringLine

/-- `fn _has_unknown(&self, from)`: first index `≥ start` holding an
`Unknown`. -/
def hasUnknownFrom (l : List SpringState) (start : Nat) : Option Nat :=
  if h : start < l.length then
    if l.getD start SpringState.Operational = SpringState.Unknown then some start
    else hasUnknownFrom l (start + 1)
  else none
termination_by l.length - start

/-- `fn _replace_first_unknown_with(mut self, state)` on the state
list. -/
def replace_first_unknown_with : List SpringState → SpringState → List SpringState
  | [], _ => []
  | SpringState.Unknown :: rest, s => s :: rest
  | x :: rest, s => x :: replace_first_unknown_with rest s

theorem countP_unknown_replace_lt (l : List SpringState) (s : SpringState)
    (hs : (s = SpringState.Unknown) = False)
    (hl : SpringState.Unknown ∈ l) :
    (replace_first_unknown_with l s).countP (fun x => x = SpringState.Unknown)
      < l.countP (fun x => x = SpringState.Unknown) := by
  induction l with
  | nil => simp at hl
  | cons x rest ih =>
    cases x with
    | Unknown =>
      simp only [replace_first_unknown_with, List.countP_cons]
      simp [hs]
    | Operational =>
      simp only [replace_first_unknown_with, List.countP_cons]
      have hmem : SpringState.Unknown ∈ rest := by
        rcases List.mem_cons.mp hl with h | h
        · exact absurd h.symm (by simp)
        · exact h
      have := ih hmem
      omega
    | Broken =>
      simp only [replace_first_unknown_with, List.countP_cons]
      have hmem : SpringState.Unknown ∈ rest := by
        rcases List.mem_cons.mp hl with h | h
        · exact absurd h.symm (by simp)
        · exact h
      have := ih hmem
      omega

theorem hasUnknownFrom_some {l : List SpringState} {start n : Nat}
    (h : hasUnknownFrom l start = some n) :
    start ≤ n ∧ n < l.length ∧
      l.getD n SpringState.Operational = SpringState.Unknown ∧
      (∀ m, start ≤ m → m < n →
        l.getD m SpringState.Operational ≠ SpringState.Unknown) := by
  by_cases hlt : start < l.length
  · rw [hasUnknownFrom] at h
    rw [dif_pos hlt] at h
    split at h
    · next heq =>
      injection h with h
      subst h
      exact ⟨Nat.le_refl _, hlt, heq, fun m h1 h2 => absurd (Nat.lt_of_lt_of_le h2 h1) (by omega)⟩
    · next hne =>
      obtain ⟨h1, h2, h3, h4⟩ := hasUnknownFrom_some h
      refine ⟨by omega, h2, h3, fun m hm1 hm2 => ?_⟩
      by_cases hms : m = start
      · subst hms; exact hne
      · exact h4 m (by omega) hm2
  · rw [hasUnknownFrom, dif_neg hlt] at h
    exact absurd h (by simp)
termination_by l.length - start

theorem hasUnknownFrom_none {l : List SpringState} {start : Nat}
    (h : hasUnknownFrom l start = none) :
    ∀ m, start ≤ m → m < l.length →
      l.getD m SpringState.Operational ≠ SpringState.Unknown := by
  intro m hm1 hm2
  by_cases hlt : start < l.length
  · rw [hasUnknownFrom, dif_pos hlt] at h
    split at h
    · exact absurd h (by simp)
    · next hne =>
      by_cases hms : m = start
      · subst hms; exact hne
      · exact hasUnknownFrom_none h m (by omega) hm2
  · omega
termination_by l.length - start

namespace SpringLine

/-- `fn _count_arrangements_impl_drag_adapted(row, start_pos)`: the
naive enumeration substituting each `Unknown` both ways and testing
`_check_data_matching`. -/
def count_arrangements_impl_drag_adapted (row : SpringLine)
    (startPos : Nat) : Nat :=
  match h : hasUnknownFrom row.states startPos with
  | some firstUnknown =>
    let combos := count_arrangements_impl_drag_adapted
      { row with states := replace_first_unknown_with row.states SpringState.Operational }
      firstUnknown
    count_arrangements_impl_drag_adapted
      { row with states := replace_first_unknown_with row.states SpringState.Broken }
      firstUnknown + combos
  | none => if row.check_data_matching then 1 else 0
termination_by row.states.countP (fun x => x = SpringState.Unknown)
decreasing_by
  · obtain ⟨h1, h2, h3, _⟩ := hasUnknownFrom_some h
    exact countP_unknown_replace_lt _ _ (by simp) (h3 ▸ Platform.getD_mem _ _ _ h2)
  · obtain ⟨h1, h2, h3, _⟩ := hasUnknownFrom_some h
    exact countP_unknown_replace_lt _ _ (by simp) (h3 ▸ Platform.getD_mem _ _ _ h2)

end SpringLine

/-! ### C10: the common counting specification

`completions l` lists every way of substituting each `Unknown` of `l`
with `Operational` or `Broken`; `brokenRuns cs` is the list of lengths
of the maximal `Broken` runs.  Both recursions below are proved
equivalent to counting the completions whose runs equal
`damaged_groups`. -/

/-- All substitutions of the `Unknown` springs. -/
def completions : List SpringState → List (List SpringState)
  | [] => [[]]
  | SpringState.Unknown :: rest =>
    (completions rest).map (fun cs => SpringState.Operational :: cs) ++
    (completions rest).map (fun cs => SpringState.Broken :: cs)
  | x :: rest => (completions rest).map (fun cs => x :: cs)

/-- Lengths of maximal `Broken` runs, with `streak` broken cells already
pending; `Unknown` counts as a separator, like in
`_check_data_matching`. -/
def brokenRunsAux : List SpringState → Nat → List Nat
  | [], 0 => []
  | [], streak + 1 => [streak + 1]
  | SpringState.Broken :: rest, streak => brokenRunsAux rest (streak + 1)
  | _ :: rest, 0 => brokenRunsAux rest 0
  | _ :: rest, streak + 1 => (streak + 1) :: brokenRunsAux rest 0

def brokenRuns (l : List SpringState) : List Nat := brokenRunsAux l 0

theorem completions_op (rest : List SpringState) :
    completions (SpringState.Operational :: rest)
      = (completions rest).map (fun cs => SpringState.Operational :: cs) := rfl

theorem completions_broken (rest : List SpringState) :
    completions (SpringState.Broken :: rest)
      = (completions rest).map (fun cs => SpringState.Broken :: cs) := rfl

theorem completions_unknown (rest : List SpringState) :
    completions (SpringState.Unknown :: rest)
      = (completions rest).map (fun cs => SpringState.Operational :: cs) ++
        (completions rest).map (fun cs => SpringState.Broken :: cs) := rfl

/-- Number of completions of `l` whose runs, continuing a pending streak
`st`, are exactly `groups`. -/
def specCountAux (l : List SpringState) (st : Nat) (groups : List Nat) : Nat :=
  (completions l).countP (fun cs => brokenRunsAux cs st = groups)

def specCount (l : List SpringState) (groups : List Nat) : Nat :=
  specCountAux l 0 groups

theorem brokenRunsAux_op (rest : List SpringState) (st : Nat) :
    brokenRunsAux (SpringState.Operational :: rest) st
      = if st = 0 then brokenRunsAux rest 0 else st :: brokenRunsAux rest 0 := by
  cases st <;> rfl

theorem brokenRunsAux_unknown (rest : List SpringState) (st : Nat) :
    brokenRunsAux (SpringState.Unknown :: rest) st
      = if st = 0 then brokenRunsAux rest 0 else st :: brokenRunsAux rest 0 := by
  cases st <;> rfl

theorem brokenRunsAux_broken (rest : List SpringState) (st : Nat) :
    brokenRunsAux (SpringState.Broken :: rest) st = brokenRunsAux rest (st + 1) := by
  cases st <;> rfl

theorem brokenRunsAux_nil (st : Nat) :
    brokenRunsAux [] st = if st = 0 then [] else [st] := by
  cases st <;> rfl

theorem brokenRunsAux_head_ge (cs : List SpringState) :
    ∀ (st g : Nat) (gs : List Nat), brokenRunsAux cs st = g :: gs → st ≤ g := by
  induction cs with
  | nil =>
    intro st g gs h
    rw [brokenRunsAux_nil] at h
    split at h
    · exact absurd h (by simp)
    · injection h with h1 _
      omega
  | cons x rest ih =>
    intro st g gs h
    cases x with
    | Broken =>
      rw [brokenRunsAux_broken] at h
      have := ih (st + 1) g gs h
      omega
    | Operational =>
      rw [brokenRunsAux_op] at h
      split at h
      · omega
      · injection h with h1 _
        omega
    | Unknown =>
      rw [brokenRunsAux_unknown] at h
      split at h
      · omega
      · injection h with h1 _
        omega

theorem brokenRunsAux_ne_nil (cs : List SpringState) :
    ∀ st : Nat, 0 < st → brokenRunsAux cs st ≠ [] := by
  induction cs with
  | nil =>
    intro st hst
    rw [brokenRunsAux_nil, if_neg (by omega)]
    simp
  | cons x rest ih =>
    intro st hst
    cases x with
    | Broken =>
      rw [brokenRunsAux_broken]
      exact ih (st + 1) (by omega)
    | Operational =>
      rw [brokenRunsAux_op, if_neg (by omega)]
      simp
    | Unknown =>
      rw [brokenRunsAux_unknown, if_neg (by omega)]
      simp

theorem brokenRunsAux_sum (cs : List SpringState) :
    ∀ st : Nat, (brokenRunsAux cs st).sum
      = st + cs.countP (fun s => s = SpringState.Broken) := by
  induction cs with
  | nil =>
    intro st
    rw [brokenRunsAux_nil]
    split <;> simp_all
  | cons x rest ih =>
    intro st
    cases x with
    | Broken =>
      rw [brokenRunsAux_broken, ih, List.countP_cons]
      simp
      omega
    | Operational =>
      rw [brokenRunsAux_op, List.countP_cons]
      split
      · rw [ih]
        simp <;> omega
      · rw [List.sum_cons, ih]
        simp <;> omega
    | Unknown =>
      rw [brokenRunsAux_unknown, List.countP_cons]
      split
      · rw [ih]
        simp <;> omega
      · rw [List.sum_cons, ih]
        simp <;> omega

theorem mem_completions_length {l : List SpringState}
    {cs : List SpringState} (h : cs ∈ completions l) :
    cs.length = l.length := by
  induction l generalizing cs with
  | nil =>
    simp only [completions, List.mem_singleton] at h
    subst h; rfl
  | cons x rest ih =>
    cases x with
    | Unknown =>
      simp only [completions, List.mem_append, List.mem_map] at h
      rcases h with ⟨cs', hcs', heq⟩ | ⟨cs', hcs', heq⟩ <;>
        (subst heq; simp [ih hcs'])
    | Operational =>
      simp only [completions, List.mem_map] at h
      obtain ⟨cs', hcs', heq⟩ := h
      subst heq; simp [ih hcs']
    | Broken =>
      simp only [completions, List.mem_map] at h
      obtain ⟨cs', hcs', heq⟩ := h
      subst heq; simp [ih hcs']

theorem mem_completions_no_unknown {l : List SpringState}
    {cs : List SpringState} (h : cs ∈ completions l) :
    SpringState.Unknown ∉ cs := by
  induction l generalizing cs with
  | nil =>
    simp only [completions, List.mem_singleton] at h
    subst h; simp
  | cons x rest ih =>
    cases x with
    | Unknown =>
      simp only [completions, List.mem_append, List.mem_map] at h
      rcases h with ⟨cs', hcs', heq⟩ | ⟨cs', hcs', heq⟩ <;>
        (subst heq; simp [ih hcs'])
    | Operational =>
      simp only [completions, List.mem_map] at h
      obtain ⟨cs', hcs', heq⟩ := h
      subst heq; simp [ih hcs']
    | Broken =>
      simp only [completions, List.mem_map] at h
      obtain ⟨cs', hcs', heq⟩ := h
      subst heq; simp [ih hcs']

theorem completions_of_no_unknown {l : List SpringState}
    (h : SpringState.Unknown ∉ l) : completions l = [l] := by
  induction l with
  | nil => rfl
  | cons x rest ih =>
    have hx : x ≠ SpringState.Unknown := fun hc => h (by rw [hc]; simp)
    have hrest : SpringState.Unknown ∉ rest := fun hc => h (List.mem_cons_of_mem _ hc)
    cases x with
    | Unknown => exact absurd rfl hx
    | Operational =>
      rw [completions_op, ih hrest]
      rfl
    | Broken =>
      rw [completions_broken, ih hrest]
      rfl

theorem completions_append_no_unknown {pre : List SpringState}
    (h : SpringState.Unknown ∉ pre) (l : List SpringState) :
    completions (pre ++ l) = (completions l).map (fun cs => pre ++ cs) := by
  induction pre with
  | nil => simp
  | cons x rest ih =>
    have hx : x ≠ SpringState.Unknown := fun hc => h (by rw [hc]; simp)
    have hrest : SpringState.Unknown ∉ rest := fun hc => h (List.mem_cons_of_mem _ hc)
    have hstep : completions ((x :: rest) ++ l)
        = (completions (rest ++ l)).map (fun cs => x :: cs) := by
      cases x with
      | Unknown => exact absurd rfl hx
      | Operational => rfl
      | Broken => rfl
    rw [hstep, ih hrest, List.map_map]
    rfl

/-! Unfolding equations of `specCountAux` along the head of the state
list. -/

theorem specCountAux_nil (st : Nat) (gs : List Nat) :
    specCountAux [] st gs = if brokenRunsAux [] st = gs then 1 else 0 := by
  simp only [specCountAux, completions, List.countP_cons, List.countP_nil]
  split <;> simp_all

theorem countP_broken_head (C : List (List SpringState)) (st : Nat)
    (gs : List Nat) :
    C.countP (fun cs => brokenRunsAux (SpringState.Broken :: cs) st = gs)
      = C.countP (fun cs => brokenRunsAux cs (st + 1) = gs) := by
  apply List.countP_congr
  intro cs _
  simp [brokenRunsAux_broken]

theorem specCountAux_broken (l : List SpringState) (st : Nat) (gs : List Nat) :
    specCountAux (SpringState.Broken :: l) st gs = specCountAux l (st + 1) gs := by
  unfold specCountAux
  rw [completions_broken, List.countP_map]
  show (completions l).countP
      (fun cs => brokenRunsAux (SpringState.Broken :: cs) st = gs) = _
  rw [countP_broken_head]

/-- Shared by the `Operational`-head equation and the left summand of
the `Unknown`-head equation: the `st = 0` case. -/
theorem countP_op_head0 (C : List (List SpringState)) (gs : List Nat) :
    C.countP (fun cs => brokenRunsAux (SpringState.Operational :: cs) 0 = gs)
      = C.countP (fun cs => brokenRunsAux cs 0 = gs) := by
  apply List.countP_congr
  intro cs _
  simp [brokenRunsAux_op]

theorem countP_op_head_pos_cons (C : List (List SpringState)) (st g : Nat)
    (gs' : List Nat) (hst : st ≠ 0) :
    C.countP (fun cs => brokenRunsAux (SpringState.Operational :: cs) st = g :: gs')
      = if st = g then C.countP (fun cs => brokenRunsAux cs 0 = gs') else 0 := by
  by_cases hg : st = g
  · subst hg
    rw [if_pos rfl]
    apply List.countP_congr
    intro cs _
    simp [brokenRunsAux_op, hst]
  · rw [if_neg hg]
    apply List.countP_eq_zero.mpr
    intro cs _
    simp only [brokenRunsAux_op, if_neg hst, decide_eq_true_eq]
    intro hc
    injection hc with h1 _
    exact hg h1

theorem specCountAux_op0 (l : List SpringState) (gs : List Nat) :
    specCountAux (SpringState.Operational :: l) 0 gs = specCountAux l 0 gs := by
  unfold specCountAux
  rw [completions_op, List.countP_map]
  show (completions l).countP
      (fun cs => brokenRunsAux (SpringState.Operational :: cs) 0 = gs) = _
  rw [countP_op_head0]

theorem specCountAux_op_pos_cons (l : List SpringState) (st g : Nat)
    (gs' : List Nat) (h : st ≠ 0) :
    specCountAux (SpringState.Operational :: l) st (g :: gs')
      = if st = g then specCountAux l 0 gs' else 0 := by
  unfold specCountAux
  rw [completions_op, List.countP_map]
  show (completions l).countP
      (fun cs => brokenRunsAux (SpringState.Operational :: cs) st = g :: gs') = _
  rw [countP_op_head_pos_cons (completions l) st g gs' h]

theorem specCountAux_unknown0 (l : List SpringState) (gs : List Nat) :
    specCountAux (SpringState.Unknown :: l) 0 gs
      = specCountAux l 0 gs + specCountAux l 1 gs := by
  unfold specCountAux
  rw [completions_unknown, List.countP_append, List.countP_map, List.countP_map]
  show (completions l).countP
      (fun cs => brokenRunsAux (SpringState.Operational :: cs) 0 = gs)
    + (completions l).countP
      (fun cs => brokenRunsAux (SpringState.Broken :: cs) 0 = gs) = _
  rw [countP_op_head0, countP_broken_head]

theorem specCountAux_unknown_pos_cons (l : List SpringState) (st g : Nat)
    (gs' : List Nat) (h : st ≠ 0) :
    specCountAux (SpringState.Unknown :: l) st (g :: gs')
      = (if st = g then specCountAux l 0 gs' else 0)
        + specCountAux l (st + 1) (g :: gs') := by
  unfold specCountAux
  rw [completions_unknown, List.countP_append, List.countP_map, List.countP_map]
  show (completions l).countP
      (fun cs => brokenRunsAux (SpringState.Operational :: cs) st = g :: gs')
    + (completions l).countP
      (fun cs => brokenRunsAux (SpringState.Broken :: cs) st = g :: gs') = _
  rw [countP_op_head_pos_cons (completions l) st g gs' h, countP_broken_head]

/-- No completion can produce a first run smaller than the pending
streak. -/
theorem specCountAux_eq_zero_of_lt (l : List SpringState) (st g : Nat)
    (gs : List Nat) (h : g < st) :
    specCountAux l st (g :: gs) = 0 := by
  apply List.countP_eq_zero.mpr
  intro cs _
  simp only [decide_eq_true_eq]
  intro hc
  exact absurd (brokenRunsAux_head_ge cs st g gs hc) (by omega)

/-- With a pending streak, the runs cannot be empty. -/
theorem specCountAux_pos_nil (l : List SpringState) (st : Nat)
    (h : 0 < st) : specCountAux l st [] = 0 := by
  apply List.countP_eq_zero.mpr
  intro cs _
  simp only [decide_eq_true_eq]
  intro hc
  exact brokenRunsAux_ne_nil cs st h hc

/-- A first run longer than the whole suffix is impossible. -/
theorem specCount_eq_zero_of_short (l : List SpringState) (g : Nat)
    (gs : List Nat) (h : l.length < g) :
    specCount l (g :: gs) = 0 := by
  apply List.countP_eq_zero.mpr
  intro cs hcs
  simp only [decide_eq_true_eq]
  intro hc
  have hsum := brokenRunsAux_sum cs 0
  rw [hc] at hsum
  have hcount : cs.countP (fun s => s = SpringState.Broken) ≤ cs.length :=
    List.countP_le_length _
  have hlen := mem_completions_length hcs
  simp only [List.sum_cons] at hsum
  omega

/-- `specCount` over no groups counts the single all-operational
completion, unless a broken spring is already present. -/
theorem specCount_no_groups (l : List SpringState) :
    specCount l [] = if SpringState.Broken ∈ l then 0 else 1 := by
  induction l with
  | nil =>
    rw [specCount, specCountAux_nil]
    simp [brokenRunsAux_nil]
  | cons x rest ih =>
    cases x with
    | Broken =>
      rw [specCount, specCountAux_broken, specCountAux_pos_nil rest 1 (by omega)]
      simp
    | Operational =>
      rw [specCount, specCountAux_op0]
      rw [specCount] at ih
      rw [ih]
      by_cases hb : SpringState.Broken ∈ rest
      · rw [if_pos hb, if_pos (List.mem_cons_of_mem _ hb)]
      · rw [if_neg hb, if_neg (by
          intro hc
          rcases List.mem_cons.mp hc with h | h
          · exact absurd h.symm (by simp)
          · exact hb h)]
    | Unknown =>
      rw [specCount, specCountAux_unknown0, specCountAux_pos_nil rest 1 (by omega)]
      rw [specCount] at ih
      rw [ih, Nat.add_zero]
      by_cases hb : SpringState.Broken ∈ rest
      · rw [if_pos hb, if_pos (List.mem_cons_of_mem _ hb)]
      · rw [if_neg hb, if_neg (by
          intro hc
          rcases List.mem_cons.mp hc with h | h
          · exact absurd h.symm (by simp)
          · exact hb h)]

/-- The run lemma: with a pending streak `st > 0` and a first target
group `st + r`, the count is nonzero exactly when the next `r` springs
can all be broken and the spring after them (if any) is not forced
broken, in which case the remainder is counted after that separator.
The three conditions mirror the checks of
`count_arrangements_recursive`. -/
theorem specCountAux_run (r : Nat) : ∀ (st : Nat) (l : List SpringState)
    (gs : List Nat), 0 < st →
    specCountAux l st ((st + r) :: gs)
      = if r ≤ l.length ∧ (∀ s ∈ l.take r, s ≠ SpringState.Operational)
          ∧ ¬(l.get? r = some SpringState.Broken)
        then specCount (l.drop (r + 1)) gs else 0 := by
  induction r with
  | zero =>
    intro st l gs hst
    cases l with
    | nil =>
      rw [specCountAux_nil, brokenRunsAux_nil, if_neg (show ¬(st = 0) by omega)]
      rw [if_pos (show 0 ≤ ([] : List SpringState).length
          ∧ (∀ s ∈ List.take 0 ([] : List SpringState),
              s ≠ SpringState.Operational)
          ∧ ¬(([] : List SpringState).get? 0 = some SpringState.Broken) from
        ⟨by simp, by simp, by simp⟩)]
      rw [show List.drop (0 + 1) ([] : List SpringState) = [] from rfl,
        specCount, specCountAux_nil, brokenRunsAux_nil,
        if_pos (show (0 : Nat) = 0 from rfl)]
      by_cases hgs : gs = []
      · subst hgs
        rw [if_pos (by simp), if_pos rfl]
      · rw [if_neg (show ¬([st] = (st + 0) :: gs) by
            intro hc; injection hc with _ h2; exact hgs h2.symm),
          if_neg (fun hc => hgs hc.symm)]
    | cons x l' =>
      cases x with
      | Broken =>
        rw [specCountAux_broken,
          specCountAux_eq_zero_of_lt l' (st + 1) (st + 0) gs (by omega)]
        rw [if_neg (show ¬(_ ∧ _ ∧ ¬((SpringState.Broken :: l').get? 0
            = some SpringState.Broken)) by
          intro hc
          exact hc.2.2 rfl)]
      | Operational =>
        rw [specCountAux_op_pos_cons l' st (st + 0) gs (by omega),
          if_pos (by omega)]
        rw [if_pos (show _ ∧ _ ∧ _ from ⟨by simp, by simp, by simp⟩)]
        rfl
      | Unknown =>
        rw [specCountAux_unknown_pos_cons l' st (st + 0) gs (by omega),
          if_pos (by omega),
          specCountAux_eq_zero_of_lt l' (st + 1) (st + 0) gs (by omega)]
        rw [if_pos (show _ ∧ _ ∧ _ from ⟨by simp, by simp, by simp⟩)]
        rfl
  | succ r ih =>
    intro st l gs hst
    cases l with
    | nil =>
      rw [specCountAux_nil, brokenRunsAux_nil, if_neg (show ¬(st = 0) by omega)]
      rw [if_neg (show ¬([st] = (st + (r + 1)) :: gs) by
        intro hc; injection hc with h1 _; omega)]
      rw [if_neg (show ¬(r + 1 ≤ ([] : List SpringState).length ∧ _ ∧ _) by
        intro hc
        have := hc.1
        simp at this)]
    | cons x l' =>
      cases x with
      | Broken =>
        rw [specCountAux_broken, show st + (r + 1) = (st + 1) + r by omega,
          ih (st + 1) l' gs (by omega)]
        apply if_congr
        · constructor
          · intro ⟨h1, h2, h3⟩
            refine ⟨by simp only [List.length_cons]; omega, ?_,
              by rw [List.get?_cons_succ]; exact h3⟩
            intro s hs
            rw [List.take_succ_cons] at hs
            rcases List.mem_cons.mp hs with h | h
            · rw [h]; simp
            · exact h2 s h
          · intro ⟨h1, h2, h3⟩
            refine ⟨by simp only [List.length_cons] at h1; omega, ?_,
              by rw [List.get?_cons_succ] at h3; exact h3⟩
            intro s hs
            exact h2 s (by rw [List.take_succ_cons]; exact List.mem_cons_of_mem _ hs)
        · rw [List.drop_succ_cons]
        · rfl
      | Operational =>
        rw [specCountAux_op_pos_cons l' st (st + (r + 1)) gs (by omega),
          if_neg (show ¬(st = st + (r + 1)) by omega)]
        rw [if_neg (show ¬(_ ∧ (∀ s ∈ (SpringState.Operational :: l').take (r + 1),
            s ≠ SpringState.Operational) ∧ _) by
          intro hc
          exact hc.2.1 SpringState.Operational
            (by rw [List.take_succ_cons]; simp) rfl)]
      | Unknown =>
        rw [specCountAux_unknown_pos_cons l' st (st + (r + 1)) gs (by omega),
          if_neg (show ¬(st = st + (r + 1)) by omega),
          show st + (r + 1) = (st + 1) + r by omega,
          ih (st + 1) l' gs (by omega), Nat.zero_add]
        apply if_congr
        · constructor
          · intro ⟨h1, h2, h3⟩
            refine ⟨by simp only [List.length_cons]; omega, ?_,
              by rw [List.get?_cons_succ]; exact h3⟩
            intro s hs
            rw [List.take_succ_cons] at hs
            rcases List.mem_cons.mp hs with h | h
            · rw [h]; simp
            · exact h2 s h
          · intro ⟨h1, h2, h3⟩
            refine ⟨by simp only [List.length_cons] at h1; omega, ?_,
              by rw [List.get?_cons_succ] at h3; exact h3⟩
            intro s hs
            exact h2 s (by rw [List.take_succ_cons]; exact List.mem_cons_of_mem _ hs)
        · rw [List.drop_succ_cons]
        · rfl

theorem position_none {α : Type} {p : α → Bool} {l : List α}
    (h : position p l = none) : ∀ s ∈ l, p s = false := by
  induction l with
  | nil => intro s hs; simp at hs
  | cons x xs ih =>
    unfold position at h
    split at h
    · exact absurd h (by simp)
    · next hpx =>
      rw [Option.map_eq_none'] at h
      intro s hs
      rcases List.mem_cons.mp hs with hsx | hsx
      · rw [hsx]
        exact Bool.of_not_eq_true hpx
      · exact ih h s hsx

theorem position_some_decomp {α : Type} {p : α → Bool} {l : List α} {n : Nat}
    (h : position p l = some n) :
    (∀ s ∈ l.take n, p s = false) ∧
      ∃ x xs, l.drop n = x :: xs ∧ p x = true := by
  induction l generalizing n with
  | nil => simp [position] at h
  | cons y ys ih =>
    unfold position at h
    split at h
    · next hpy =>
      injection h with h
      subst h
      exact ⟨by simp, y, ys, rfl, hpy⟩
    · next hpy =>
      rw [Option.map_eq_some'] at h
      obtain ⟨m, hm, hmn⟩ := h
      subst hmn
      obtain ⟨h1, x, xs, h2, h3⟩ := ih hm
      refine ⟨?_, x, xs, by rw [List.drop_succ_cons]; exact h2, h3⟩
      intro s hs
      rw [List.take_succ_cons] at hs
      rcases List.mem_cons.mp hs with hsx | hsx
      · rw [hsx]
        exact Bool.of_not_eq_true hpy
      · exact h1 s hsx

/-- A prefix of operational springs does not change the count. -/
theorem specCount_ops_front (pre : List SpringState)
    (h : ∀ s ∈ pre, s = SpringState.Operational) (l : List SpringState)
    (gs : List Nat) : specCount (pre ++ l) gs = specCount l gs := by
  induction pre with
  | nil => rfl
  | cons x rest ih =>
    have hx : x = SpringState.Operational := h x (by simp)
    subst hx
    rw [List.cons_append, specCount, specCountAux_op0]
    exact ih (fun s hs => h s (List.mem_cons_of_mem _ hs))


/-- The `state_pos > len` base case of the recursion, against the
specification count. -/
theorem car_none_case (line : SpringLine) (statePos groupPos : Nat)
    (hlen : line.states.length < statePos) :
    (if (line.damaged_groups.get? groupPos).isNone then 1 else 0 : Nat)
      = specCount (line.states.drop statePos)
          (line.damaged_groups.drop groupPos) := by
  rw [List.drop_eq_nil_of_le (by omega), specCount, specCountAux_nil,
    brokenRunsAux_nil, if_pos (show (0 : Nat) = 0 from rfl)]
  cases hget : line.damaged_groups.get? groupPos with
  | none =>
    rw [List.drop_eq_nil_of_le (List.get?_eq_none.mp hget)]
    simp
  | some g =>
    have hlt : groupPos < line.damaged_groups.length := by
      by_contra hc
      rw [List.get?_eq_none.mpr (by omega)] at hget
      exact absurd hget (by simp)
    have : line.damaged_groups.drop groupPos ≠ [] := by
      intro hc
      have := congrArg List.length hc
      simp only [List.length_drop, List.length_nil] at this
      omega
    rw [if_neg (show ¬(((some g).isNone) = true) by simp),
      if_neg (show ¬(([] : List Nat) = line.damaged_groups.drop groupPos) from
        fun hc => this hc.symm)]

set_option maxHeartbeats 1000000 in
theorem car_eq_spec (line : SpringLine)
    (hpos : ∀ g ∈ line.damaged_groups, 0 < g) :
    ∀ (d statePos groupPos : Nat), line.states.length + 1 - statePos ≤ d →
      line.count_arrangements_recursive statePos groupPos
        = specCount (line.states.drop statePos)
            (line.damaged_groups.drop groupPos) := by
  intro d
  induction d with
  | zero =>
    intro statePos groupPos hd
    have hlen : line.states.length < statePos := by omega
    rw [SpringLine.count_arrangements_recursive]
    split
    · next heq => exact car_none_case line statePos groupPos hlen
    · next states heq =>
      obtain ⟨hle, _⟩ := sliceFrom_some heq
      omega
  | succ d ihd =>
    intro statePos groupPos hd
    rw [SpringLine.count_arrangements_recursive]
    split
    · next heq =>
      have hlen : line.states.length < statePos := by
        unfold sliceFrom at heq
        split at heq
        · exact absurd heq (by simp)
        · omega
      exact car_none_case line statePos groupPos hlen
    · next states heq =>
      obtain ⟨hle, hstates⟩ := sliceFrom_some heq
      split
      · next hget =>
        -- groups exhausted: count is 1 unless a broken spring remains
        rw [List.drop_eq_nil_of_le (List.get?_eq_none.mp hget),
          specCount_no_groups, ← hstates]
        by_cases hb : SpringState.Broken ∈ states
        · rw [if_pos hb, if_pos (List.any_eq_true.mpr ⟨SpringState.Broken, hb, by simp⟩)]
        · rw [if_neg hb, if_neg (by
            intro hc
            obtain ⟨s, hs, hsb⟩ := List.any_eq_true.mp hc
            rw [decide_eq_true_eq] at hsb
            exact hb (hsb ▸ hs))]
      · next group hget =>
        have hgpos : 0 < group := hpos group (List.get?_mem hget)
        have hglt : groupPos < line.damaged_groups.length := by
          by_contra hc
          rw [List.get?_eq_none.mpr (by omega)] at hget
          exact absurd hget (by simp)
        have hdropg : line.damaged_groups.drop groupPos
            = group :: line.damaged_groups.drop (groupPos + 1) := by
          rw [List.drop_eq_getElem_cons hglt]
          congr 1
          have := List.get?_eq_getElem? line.damaged_groups groupPos
          rw [hget, List.getElem?_eq_getElem hglt] at this
          injection this with this
          exact this.symm
        split
        · next hpos2 =>
          -- everything left is operational but a group remains: 0
          have hops : ∀ s ∈ states, s = SpringState.Operational := by
            intro s hs
            have := position_none hpos2 s hs
            simpa using this
          have h1 := specCount_ops_front states hops [] (group :: line.damaged_groups.drop (groupPos + 1))
          rw [List.append_nil] at h1
          rw [← hstates, hdropg, h1, specCount, specCountAux_nil,
            brokenRunsAux_nil, if_pos (show (0 : Nat) = 0 from rfl),
            if_neg (by simp)]
        · next first hpos2 =>
          obtain ⟨htake, x, xs, hdone, hx⟩ := position_some_decomp hpos2
          have hxop : x ≠ SpringState.Operational := by
            simpa using hx
          have htakeop : ∀ s ∈ states.take first, s = SpringState.Operational := by
            intro s hs
            have := htake s hs
            simpa using this
          -- spec on the suffix starting at the first non-operational spring
          have hspec1 : specCount states (group :: line.damaged_groups.drop (groupPos + 1))
              = specCount (x :: xs) (group :: line.damaged_groups.drop (groupPos + 1)) := by
            conv_lhs => rw [← List.take_append_drop first states]
            rw [specCount_ops_front _ htakeop, hdone]
          rw [← hstates, hdropg, hspec1, hdone]
          show (if (x :: xs).length < group then 0
            else
              if (x :: xs).head? = some SpringState.Broken then
                (if ((List.take group (x :: xs)).any
                    fun s => decide (s = SpringState.Operational)) = true then 0
                 else if (((x :: xs).get? group).elim false
                    fun s => decide (s = SpringState.Broken)) = true then 0
                 else line.count_arrangements_recursive
                   (statePos + first + group + 1) (groupPos + 1))
              else
                (if ((List.take group (x :: xs)).any
                    fun s => decide (s = SpringState.Operational)) = true then 0
                 else if (((x :: xs).get? group).elim false
                    fun s => decide (s = SpringState.Broken)) = true then 0
                 else line.count_arrangements_recursive
                   (statePos + first + group + 1) (groupPos + 1))
                + line.count_arrangements_recursive (statePos + first + 1) groupPos)
            = specCount (x :: xs)
                (group :: line.damaged_groups.drop (groupPos + 1))
          by_cases hlen2 : (x :: xs).length < group
          · rw [if_pos hlen2, specCount_eq_zero_of_short _ _ _ hlen2]
          · rw [if_neg hlen2]
            have hlen3 : group ≤ xs.length + 1 := by
              simp only [List.length_cons] at hlen2
              omega
            have hrun := specCountAux_run (group - 1) 1 xs
              (line.damaged_groups.drop (groupPos + 1)) (by omega)
            rw [show 1 + (group - 1) = group by omega,
              show group - 1 + 1 = group by omega] at hrun
            have hdp1 : line.states.drop (statePos + first + group + 1)
                = xs.drop group := by
              rw [show statePos + first + group + 1
                  = statePos + (first + (group + 1)) by omega,
                ← List.drop_drop, ← hstates, ← List.drop_drop, hdone,
                List.drop_succ_cons]
            have hdp2 : line.states.drop (statePos + first + 1) = xs := by
              rw [show statePos + first + 1 = statePos + (first + 1) by omega,
                ← List.drop_drop, ← hstates, ← List.drop_drop, hdone,
                List.drop_succ_cons, List.drop_zero]
            have hcar2 : line.count_arrangements_recursive
                (statePos + first + 1) groupPos
                = specCountAux xs 0
                    (group :: line.damaged_groups.drop (groupPos + 1)) := by
              rw [ihd (statePos + first + 1) groupPos (by omega), hdp2, hdropg]
              rfl
            have hcar1 : line.count_arrangements_recursive
                (statePos + first + group + 1) (groupPos + 1)
                = specCount (xs.drop group)
                    (line.damaged_groups.drop (groupPos + 1)) := by
              rw [ihd (statePos + first + group + 1) (groupPos + 1) (by omega),
                hdp1]
            cases x with
            | Operational => exact absurd rfl hxop
            | Broken =>
              rw [if_pos (show (SpringState.Broken :: xs).head?
                  = some SpringState.Broken from rfl)]
              rw [specCount, specCountAux_broken, hrun]
              by_cases hA : ((List.take group (SpringState.Broken :: xs)).any
                  fun s => decide (s = SpringState.Operational)) = true
              · rw [if_pos hA, if_neg]
                intro ⟨c1, c2, c3⟩
                rw [show group = group - 1 + 1 by omega,
                  List.take_succ_cons] at hA
                obtain ⟨s, hs, hsop⟩ := List.any_eq_true.mp hA
                rw [decide_eq_true_eq] at hsop
                rcases List.mem_cons.mp hs with h | h
                · rw [hsop] at h
                  exact absurd h (by simp)
                · exact (c2 s h) hsop
              · rw [if_neg hA]
                by_cases hB : (((SpringState.Broken :: xs).get? group).elim false
                    fun s => decide (s = SpringState.Broken)) = true
                · rw [if_pos hB, if_neg]
                  intro ⟨c1, c2, c3⟩
                  rw [show group = group - 1 + 1 by omega,
                    List.get?_cons_succ] at hB
                  apply c3
                  cases hq : xs.get? (group - 1) with
                  | none =>
                    rw [hq] at hB
                    exact absurd hB (by simp [Option.elim])
                  | some s =>
                    rw [hq] at hB
                    simp only [Option.elim, decide_eq_true_eq] at hB
                    rw [hB]
                · rw [if_neg hB, if_pos, hcar1]
                  refine ⟨by omega, ?_, ?_⟩
                  · intro s hs hsop
                    apply hA
                    rw [show group = group - 1 + 1 by omega, List.take_succ_cons]
                    exact List.any_eq_true.mpr
                      ⟨s, List.mem_cons_of_mem _ hs, by simp [hsop]⟩
                  · intro hq
                    apply hB
                    rw [show group = group - 1 + 1 by omega,
                      List.get?_cons_succ, hq]
                    simp [Option.elim]
            | Unknown =>
              rw [if_neg (show ¬((SpringState.Unknown :: xs).head?
                  = some SpringState.Broken) by simp)]
              rw [specCount, specCountAux_unknown0, hrun, hcar2]
              by_cases hA : ((List.take group (SpringState.Unknown :: xs)).any
                  fun s => decide (s = SpringState.Operational)) = true
              · rw [if_pos hA, if_neg]
                · omega
                intro ⟨c1, c2, c3⟩
                rw [show group = group - 1 + 1 by omega,
                  List.take_succ_cons] at hA
                obtain ⟨s, hs, hsop⟩ := List.any_eq_true.mp hA
                rw [decide_eq_true_eq] at hsop
                rcases List.mem_cons.mp hs with h | h
                · rw [hsop] at h
                  exact absurd h (by simp)
                · exact (c2 s h) hsop
              · rw [if_neg hA]
                by_cases hB : (((SpringState.Unknown :: xs).get? group).elim false
                    fun s => decide (s = SpringState.Broken)) = true
                · rw [if_pos hB, if_neg]
                  · omega
                  intro ⟨c1, c2, c3⟩
                  rw [show group = group - 1 + 1 by omega,
                    List.get?_cons_succ] at hB
                  apply c3
                  cases hq : xs.get? (group - 1) with
                  | none =>
                    rw [hq] at hB
                    exact absurd hB (by simp [Option.elim])
                  | some s =>
                    rw [hq] at hB
                    simp only [Option.elim, decide_eq_true_eq] at hB
                    rw [hB]
                · rw [if_neg hB, if_pos, hcar1]
                  · omega
                  refine ⟨by omega, ?_, ?_⟩
                  · intro s hs hsop
                    apply hA
                    rw [show group = group - 1 + 1 by omega, List.take_succ_cons]
                    exact List.any_eq_true.mpr
                      ⟨s, List.mem_cons_of_mem _ hs, by simp [hsop]⟩
                  · intro hq
                    apply hB
                    rw [show group = group - 1 + 1 by omega,
                      List.get?_cons_succ, hq]
                    simp [Option.elim]


theorem checkAux_nil_eq (groups : List Nat) (cg st : Nat) (w : Bool) :
    SpringLine.checkAux groups [] cg st w
    = if w then
        (match groups.get? cg with
         | some group => decide (cg + 1 = groups.length) && decide (group = st)
         | none => false)
      else decide (groups.length = cg) := rfl

theorem checkAux_cons_broken (groups : List Nat) (rest : List SpringState)
    (cg st : Nat) (w : Bool) :
    SpringLine.checkAux groups (SpringState.Broken :: rest) cg st w
    = match groups.get? cg with
      | some group =>
        if group < st + 1 then false
        else SpringLine.checkAux groups rest cg (st + 1) true
      | none => false := rfl

theorem checkAux_cons_op (groups : List Nat) (rest : List SpringState)
    (cg st : Nat) (w : Bool) :
    SpringLine.checkAux groups (SpringState.Operational :: rest) cg st w
    = if st ≠ 0 then
        (match groups.get? cg with
         | some group =>
           if st ≠ group then false
           else SpringLine.checkAux groups rest (cg + 1) 0 false
         | none => false)
      else SpringLine.checkAux groups rest cg 0 false := rfl

theorem checkAux_cons_unknown (groups : List Nat) (rest : List SpringState)
    (cg st : Nat) (w : Bool) :
    SpringLine.checkAux groups (SpringState.Unknown :: rest) cg st w
    = if st ≠ 0 then
        (match groups.get? cg with
         | some group =>
           if st ≠ group then false
           else SpringLine.checkAux groups rest (cg + 1) 0 false
         | none => false)
      else SpringLine.checkAux groups rest cg 0 false := rfl

theorem drop_len_le {α : Type} (l : List α) (n : Nat) (h : l.length ≤ n) :
    l.drop n = [] := List.drop_eq_nil_of_le h

theorem checkAux_iff (groups : List Nat) :
    ∀ (l : List SpringState) (cg st : Nat), cg ≤ groups.length →
    (SpringLine.checkAux groups l cg st (decide (st ≠ 0)) = true
      ↔ groups.drop cg = brokenRunsAux l st) := by
  intro l
  induction l with
  | nil =>
    intro cg st hcg
    rw [checkAux_nil_eq, brokenRunsAux_nil]
    by_cases hst : st = 0
    · subst hst
      rw [if_pos rfl]
      rw [show (decide ((0:Nat) ≠ 0)) = false from rfl]
      simp only [Bool.false_eq_true, if_false, decide_eq_true_eq]
      constructor
      · intro h
        rw [List.drop_eq_nil_of_le (by omega)]
      · intro h
        have := congrArg List.length h
        simp only [List.length_drop, List.length_nil] at this
        omega
    · rw [if_neg hst, show (decide (st ≠ 0)) = true by simp [hst], if_pos rfl]
      cases hget : groups.get? cg with
      | none =>
        have hlen : groups.length ≤ cg := List.get?_eq_none.mp hget
        simp only [Bool.false_eq_true, false_iff]
        intro hc
        rw [List.drop_eq_nil_of_le hlen] at hc
        exact absurd hc.symm (by simp)
      | some g =>
        have hlt : cg < groups.length := by
          by_contra hc
          rw [List.get?_eq_none.mpr (by omega)] at hget
          exact absurd hget (by simp)
        have hdropg : groups.drop cg = g :: groups.drop (cg + 1) := by
          rw [List.drop_eq_getElem_cons hlt]
          congr 1
          have := List.get?_eq_getElem? groups cg
          rw [hget, List.getElem?_eq_getElem hlt] at this
          injection this with this
          exact this.symm
        rw [hdropg]
        simp only [Bool.and_eq_true, decide_eq_true_eq]
        constructor
        · intro ⟨h1, h2⟩
          rw [h2, List.drop_eq_nil_of_le (by omega)]
        · intro hc
          injection hc with hc1 hc2
          have := congrArg List.length hc2
          simp only [List.length_drop, List.length_nil] at this
          exact ⟨by omega, hc1⟩
  | cons x rest ih =>
    intro cg st hcg
    cases x with
    | Broken =>
      rw [checkAux_cons_broken, brokenRunsAux_broken]
      cases hget : groups.get? cg with
      | none =>
        have hlen : groups.length ≤ cg := List.get?_eq_none.mp hget
        simp only [Bool.false_eq_true, false_iff]
        intro hc
        rw [List.drop_eq_nil_of_le hlen] at hc
        exact brokenRunsAux_ne_nil rest (st + 1) (by omega) hc.symm
      | some g =>
        have hlt : cg < groups.length := by
          by_contra hc
          rw [List.get?_eq_none.mpr (by omega)] at hget
          exact absurd hget (by simp)
        have hdropg : groups.drop cg = g :: groups.drop (cg + 1) := by
          rw [List.drop_eq_getElem_cons hlt]
          congr 1
          have := List.get?_eq_getElem? groups cg
          rw [hget, List.getElem?_eq_getElem hlt] at this
          injection this with this
          exact this.symm
        simp only []
        by_cases hg : g < st + 1
        · rw [if_pos hg]
          simp only [Bool.false_eq_true, false_iff]
          intro hc
          rw [hdropg] at hc
          have := brokenRunsAux_head_ge rest (st + 1) g (groups.drop (cg + 1)) hc.symm
          omega
        · rw [if_neg hg]
          exact ih cg (st + 1) hcg
    | Operational =>
      rw [checkAux_cons_op, brokenRunsAux_op]
      by_cases hst : st = 0
      · subst hst
        rw [if_neg (by simp), if_pos rfl]
        exact ih cg 0 hcg
      · rw [if_pos hst, if_neg hst]
        cases hget : groups.get? cg with
        | none =>
          have hlen : groups.length ≤ cg := List.get?_eq_none.mp hget
          simp only [Bool.false_eq_true, false_iff]
          intro hc
          rw [List.drop_eq_nil_of_le hlen] at hc
          exact absurd hc.symm (by simp)
        | some g =>
          have hlt : cg < groups.length := by
            by_contra hc
            rw [List.get?_eq_none.mpr (by omega)] at hget
            exact absurd hget (by simp)
          have hdropg : groups.drop cg = g :: groups.drop (cg + 1) := by
            rw [List.drop_eq_getElem_cons hlt]
            congr 1
            have := List.get?_eq_getElem? groups cg
            rw [hget, List.getElem?_eq_getElem hlt] at this
            injection this with this
            exact this.symm
          rw [hdropg]
          simp only []
          by_cases hsg : st = g
          · subst hsg
            rw [if_neg (by simp)]
            rw [show SpringLine.checkAux groups rest (cg + 1) 0 false
                = SpringLine.checkAux groups rest (cg + 1) 0 (decide ((0:Nat) ≠ 0)) from rfl,
              ih (cg + 1) 0 (by omega)]
            simp
          · rw [if_pos (by omega)]
            simp only [Bool.false_eq_true, false_iff]
            intro hc
            injection hc with hc1 _
            exact hsg hc1.symm
    | Unknown =>
      rw [checkAux_cons_unknown, brokenRunsAux_unknown]
      by_cases hst : st = 0
      · subst hst
        rw [if_neg (by simp), if_pos rfl]
        exact ih cg 0 hcg
      · rw [if_pos hst, if_neg hst]
        cases hget : groups.get? cg with
        | none =>
          have hlen : groups.length ≤ cg := List.get?_eq_none.mp hget
          simp only [Bool.false_eq_true, false_iff]
          intro hc
          rw [List.drop_eq_nil_of_le hlen] at hc
          exact absurd hc.symm (by simp)
        | some g =>
          have hlt : cg < groups.length := by
            by_contra hc
            rw [List.get?_eq_none.mpr (by omega)] at hget
            exact absurd hget (by simp)
          have hdropg : groups.drop cg = g :: groups.drop (cg + 1) := by
            rw [List.drop_eq_getElem_cons hlt]
            congr 1
            have := List.get?_eq_getElem? groups cg
            rw [hget, List.getElem?_eq_getElem hlt] at this
            injection this with this
            exact this.symm
          rw [hdropg]
          simp only []
          by_cases hsg : st = g
          · subst hsg
            rw [if_neg (by simp)]
            rw [show SpringLine.checkAux groups rest (cg + 1) 0 false
                = SpringLine.checkAux groups rest (cg + 1) 0 (decide ((0:Nat) ≠ 0)) from rfl,
              ih (cg + 1) 0 (by omega)]
            simp
          · rw [if_pos (by omega)]
            simp only [Bool.false_eq_true, false_iff]
            intro hc
            injection hc with hc1 _
            exact hsg hc1.symm

/-- `_check_data_matching` accepts exactly the lines whose broken runs
are the damaged groups. -/
theorem check_data_matching_iff (line : SpringLine) :
    line.check_data_matching = true ↔ brokenRuns line.states = line.damaged_groups := by
  have h := checkAux_iff line.damaged_groups line.states 0 0 (by omega)
  rw [List.drop_zero] at h
  rw [SpringLine.check_data_matching, brokenRuns]
  exact (show SpringLine.checkAux line.damaged_groups line.states 0 0 false = true
      ↔ line.damaged_groups = brokenRunsAux line.states 0 from h).trans eq_comm


theorem replace_first_unknown_op_cons (x : SpringState)
    (l : List SpringState) (s : SpringState)
    (hx : x ≠ SpringState.Unknown) :
    replace_first_unknown_with (x :: l) s
      = x :: replace_first_unknown_with l s := by
  cases x with
  | Unknown => exact absurd rfl hx
  | Operational => rfl
  | Broken => rfl

theorem replace_first_decomp (pre rest : List SpringState) (s : SpringState)
    (h : SpringState.Unknown ∉ pre) :
    replace_first_unknown_with (pre ++ SpringState.Unknown :: rest) s
      = pre ++ s :: rest := by
  induction pre with
  | nil => rfl
  | cons x pre' ih =>
    have hx : x ≠ SpringState.Unknown := fun hc => h (by rw [hc]; simp)
    rw [List.cons_append, replace_first_unknown_op_cons x _ s hx,
      ih (fun hc => h (List.mem_cons_of_mem _ hc)), List.cons_append]

theorem getD_eq_getElem_of_lt {α : Type} (l : List α) (d : α) (n : Nat)
    (h : n < l.length) : l.getD n d = l[n] := by
  rw [List.getD_eq_getElem?_getD, List.getElem?_eq_getElem h, Option.getD_some]

set_option maxHeartbeats 1000000 in
theorem naive_eq_countP :
    ∀ (d : Nat) (line : SpringLine) (startPos : Nat),
      line.states.countP (fun x => x = SpringState.Unknown) ≤ d →
      SpringState.Unknown ∉ line.states.take startPos →
      SpringLine.count_arrangements_impl_drag_adapted line startPos
        = (completions line.states).countP
            (fun cs => SpringLine.check_data_matching ⟨cs, line.damaged_groups⟩) := by
  intro d
  induction d with
  | zero =>
    intro line startPos hcount _
    have hnoU : SpringState.Unknown ∉ line.states := by
      intro hc
      have h0 : line.states.countP (fun x => x = SpringState.Unknown) = 0 := by
        omega
      have := List.countP_eq_zero.mp h0 SpringState.Unknown hc
      simp at this
    rw [SpringLine.count_arrangements_impl_drag_adapted]
    split
    · next firstUnknown hfu =>
      obtain ⟨_, h2, h3, _⟩ := hasUnknownFrom_some hfu
      exact absurd (h3 ▸ Platform.getD_mem _ _ _ h2) hnoU
    · rw [completions_of_no_unknown hnoU]
      simp only [List.countP_cons, List.countP_nil]
      split
      · omega
      · omega
  | succ d ihd =>
    intro line startPos hcount htake
    rw [SpringLine.count_arrangements_impl_drag_adapted]
    split
    · next firstUnknown hfu =>
      obtain ⟨h1, h2, h3, h4⟩ := hasUnknownFrom_some hfu
      have hU : line.states[firstUnknown] = SpringState.Unknown := by
        rw [← getD_eq_getElem_of_lt _ SpringState.Operational _ h2]
        exact h3
      have hprelen : (line.states.take firstUnknown).length = firstUnknown :=
        List.length_take_of_le (by omega)
      have htakeU : SpringState.Unknown ∉ line.states.take firstUnknown := by
        intro hc
        obtain ⟨j, hj, hjel⟩ := List.getElem_of_mem hc
        rw [List.getElem_take] at hjel
        have hjf : j < firstUnknown := by omega
        by_cases hjs : j < startPos
        · apply htake
          have hjlt : j < (line.states.take startPos).length := by
            rw [List.length_take]
            have : j < line.states.length := by
              rw [hprelen] at hj
              omega
            omega
          have : (line.states.take startPos).get ⟨j, hjlt⟩
              = SpringState.Unknown := by
            rw [List.get_eq_getElem, List.getElem_take]
            exact hjel
          rw [← this]
          exact List.get_mem ..
        · apply h4 j (by omega) hjf
          rw [getD_eq_getElem_of_lt _ _ _ (by rw [hprelen] at hj; omega)]
          exact hjel
      have hdecomp : line.states
          = line.states.take firstUnknown
            ++ SpringState.Unknown :: line.states.drop (firstUnknown + 1) := by
        conv_lhs => rw [← List.take_append_drop firstUnknown line.states]
        congr 1
        rw [List.drop_eq_getElem_cons h2, hU]
      -- the two replaced lines
      have hrepOp : replace_first_unknown_with line.states SpringState.Operational
          = line.states.take firstUnknown
            ++ SpringState.Operational :: line.states.drop (firstUnknown + 1) := by
        conv_lhs => rw [hdecomp]
        exact replace_first_decomp _ _ _ htakeU
      have hrepB : replace_first_unknown_with line.states SpringState.Broken
          = line.states.take firstUnknown
            ++ SpringState.Broken :: line.states.drop (firstUnknown + 1) := by
        conv_lhs => rw [hdecomp]
        exact replace_first_decomp _ _ _ htakeU
      -- unknown counts decrease
      have hc0 : (line.states.take firstUnknown).countP
          (fun x => x = SpringState.Unknown) = 0 :=
        List.countP_eq_zero.mpr (fun s hs => by
          simp only [decide_eq_true_eq]
          intro hcu
          exact htakeU (hcu ▸ hs))
      have hcount2 : (line.states.drop (firstUnknown + 1)).countP
            (fun x => x = SpringState.Unknown) + 1
          ≤ d + 1 := by
        have := congrArg (List.countP (fun x => decide (x = SpringState.Unknown))) hdecomp
        rw [List.countP_append, List.countP_cons, hc0] at this
        simp at this
        omega
      -- apply the induction hypothesis to both replaced lines
      have hihOp := ihd ⟨replace_first_unknown_with line.states SpringState.Operational,
          line.damaged_groups⟩ firstUnknown
        (by
          show (replace_first_unknown_with line.states SpringState.Operational).countP _ ≤ d
          rw [hrepOp, List.countP_append, List.countP_cons, hc0]
          simp
          omega)
        (by
          show SpringState.Unknown
            ∉ (replace_first_unknown_with line.states SpringState.Operational).take firstUnknown
          rw [hrepOp, List.take_append_of_le_length (by rw [hprelen]),
            List.take_of_length_le (by rw [hprelen])]
          exact htakeU)
      have hihB := ihd ⟨replace_first_unknown_with line.states SpringState.Broken,
          line.damaged_groups⟩ firstUnknown
        (by
          show (replace_first_unknown_with line.states SpringState.Broken).countP _ ≤ d
          rw [hrepB, List.countP_append, List.countP_cons, hc0]
          simp
          omega)
        (by
          show SpringState.Unknown
            ∉ (replace_first_unknown_with line.states SpringState.Broken).take firstUnknown
          rw [hrepB, List.take_append_of_le_length (by rw [hprelen]),
            List.take_of_length_le (by rw [hprelen])]
          exact htakeU)
      show SpringLine.count_arrangements_impl_drag_adapted
          ⟨replace_first_unknown_with line.states SpringState.Broken,
            line.damaged_groups⟩ firstUnknown
        + SpringLine.count_arrangements_impl_drag_adapted
          ⟨replace_first_unknown_with line.states SpringState.Operational,
            line.damaged_groups⟩ firstUnknown
        = _
      rw [hihOp, hihB]
      -- count over the completions of the original line
      conv_rhs => rw [hdecomp, completions_append_no_unknown htakeU,
        completions_unknown, List.map_append, List.countP_append,
        List.map_map, List.map_map, List.countP_map, List.countP_map]
      -- rewrite the two completion lists of the replaced lines
      rw [show (⟨replace_first_unknown_with line.states SpringState.Operational,
          line.damaged_groups⟩ : SpringLine).states
        = replace_first_unknown_with line.states SpringState.Operational from rfl]
      rw [show (⟨replace_first_unknown_with line.states SpringState.Broken,
          line.damaged_groups⟩ : SpringLine).states
        = replace_first_unknown_with line.states SpringState.Broken from rfl]
      rw [hrepOp, hrepB,
        completions_append_no_unknown htakeU, completions_broken,
        completions_append_no_unknown htakeU, completions_op,
        List.map_map, List.map_map, List.countP_map, List.countP_map]
      rw [Nat.add_comm]
    · next hfu =>
      have hnoU : SpringState.Unknown ∉ line.states := by
        intro hc
        obtain ⟨j, hj, hjel⟩ := List.getElem_of_mem hc
        by_cases hjs : j < startPos
        · apply htake
          have hjlt : j < (line.states.take startPos).length := by
            rw [List.length_take]
            omega
          have : (line.states.take startPos).get ⟨j, hjlt⟩
              = SpringState.Unknown := by
            rw [List.get_eq_getElem, List.getElem_take]
            exact hjel
          rw [← this]
          exact List.get_mem ..
        · apply hasUnknownFrom_none hfu j (by omega) hj
          rw [getD_eq_getElem_of_lt _ _ _ hj]
          exact hjel
      rw [completions_of_no_unknown hnoU]
      simp only [List.countP_cons, List.countP_nil]
      split
      · omega
      · omega

/-- C10 (amended): for every `SpringLine` whose `damaged_groups` are all
positive, the group-skipping recursion agrees with the naive
enumeration. -/
theorem count_arrangements_eq_naive_of_pos (line : SpringLine)
    (hpos : ∀ g ∈ line.damaged_groups, 0 < g) :
    line.count_arrangements
      = SpringLine.count_arrangements_impl_drag_adapted line 0 := by
  rw [SpringLine.count_arrangements,
    car_eq_spec line hpos (line.states.length + 1) 0 0 (by omega),
    List.drop_zero, List.drop_zero,
    naive_eq_countP (line.states.countP (fun x => x = SpringState.Unknown))
      line 0 (Nat.le_refl _) (by simp)]
  rw [specCount, specCountAux]
  apply List.countP_congr
  intro cs _
  have h := check_data_matching_iff ⟨cs, line.damaged_groups⟩
  simp only [brokenRuns] at h
  rw [decide_eq_true_eq]
  exact ((show brokenRunsAux cs 0 = line.damaged_groups
      ↔ SpringLine.check_data_matching ⟨cs, line.damaged_groups⟩ = true from
    h.symm))

/-- Witness for `count_arrangements_eq_naive_of_pos`: the line `?? 1`,
where both functions count 2 arrangements. -/
theorem count_arrangements_eq_naive_of_pos_witness :
    SpringLine.count_arrangements
        ⟨[SpringState.Unknown, SpringState.Unknown], [1]⟩
      = SpringLine.count_arrangements_impl_drag_adapted
        ⟨[SpringState.Unknown, SpringState.Unknown], [1]⟩ 0 :=
  count_arrangements_eq_naive_of_pos
    ⟨[SpringState.Unknown, SpringState.Unknown], [1]⟩ (by decide)

set_option maxRecDepth 4000 in
/-- On the line `? 0` the group-skipping recursion counts 1. -/
theorem count_arrangements_zero_group_val :
    SpringLine.count_arrangements ⟨[SpringState.Unknown], [0]⟩ = 1 := by
  simp [SpringLine.count_arrangements,
    SpringLine.count_arrangements_recursive, sliceFrom, position]

/-- On the line `? 0` the naive enumeration counts 0. -/
theorem naive_zero_group_val :
    SpringLine.count_arrangements_impl_drag_adapted
      ⟨[SpringState.Unknown], [0]⟩ 0 = 0 := by
  have hU0 : hasUnknownFrom [SpringState.Unknown] 0 = some 0 := by
    rw [hasUnknownFrom, dif_pos (by decide),
      if_pos (show [SpringState.Unknown].getD 0 SpringState.Operational
        = SpringState.Unknown from rfl)]
  have hOp : hasUnknownFrom [SpringState.Operational] 0 = none := by
    rw [hasUnknownFrom, dif_pos (by decide), if_neg (by decide)]
    rw [hasUnknownFrom, dif_neg (by decide)]
  have hB : hasUnknownFrom [SpringState.Broken] 0 = none := by
    rw [hasUnknownFrom, dif_pos (by decide), if_neg (by decide)]
    rw [hasUnknownFrom, dif_neg (by decide)]
  have hnaiveOp : SpringLine.count_arrangements_impl_drag_adapted
      ⟨[SpringState.Operational], [0]⟩ 0 = 0 := by
    rw [SpringLine.count_arrangements_impl_drag_adapted]
    split
    · next fU heq =>
      rw [hOp] at heq
      exact absurd heq (by simp)
    · rw [if_neg (by decide)]
  have hnaiveB : SpringLine.count_arrangements_impl_drag_adapted
      ⟨[SpringState.Broken], [0]⟩ 0 = 0 := by
    rw [SpringLine.count_arrangements_impl_drag_adapted]
    split
    · next fU heq =>
      rw [hB] at heq
      exact absurd heq (by simp)
    · rw [if_neg (by decide)]
  rw [SpringLine.count_arrangements_impl_drag_adapted]
  split
  · next fU heq =>
    rw [hU0] at heq
    injection heq with heq
    subst heq
    show SpringLine.count_arrangements_impl_drag_adapted
        ⟨replace_first_unknown_with [SpringState.Unknown] SpringState.Broken, [0]⟩ 0
      + SpringLine.count_arrangements_impl_drag_adapted
        ⟨replace_first_unknown_with [SpringState.Unknown] SpringState.Operational, [0]⟩ 0
      = 0
    rw [show replace_first_unknown_with [SpringState.Unknown] SpringState.Broken
        = [SpringState.Broken] from rfl,
      show replace_first_unknown_with [SpringState.Unknown] SpringState.Operational
        = [SpringState.Operational] from rfl,
      hnaiveOp, hnaiveB]
  · next heq =>
    rw [hU0] at heq
    exact absurd heq (by simp)

/-- Counterexample to C10 as stated: on the line `? 0` (a single unknown
spring with a single damaged group of size 0), the group-skipping
recursion counts 1 arrangement while the naive enumeration counts 0, so
the two functions are not equal on every `SpringLine`. -/
theorem count_arrangements_ne_naive_on_zero_group :
    SpringLine.count_arrangements ⟨[SpringState.Unknown], [0]⟩ = 1 ∧
    SpringLine.count_arrangements_impl_drag_adapted
        ⟨[SpringState.Unknown], [0]⟩ 0 = 0 ∧
    ¬(SpringLine.count_arrangements ⟨[SpringState.Unknown], [0]⟩
      = SpringLine.count_arrangements_impl_drag_adapted
          ⟨[SpringState.Unknown], [0]⟩ 0) :=
  ⟨count_arrangements_zero_group_val, naive_zero_group_val, fun hc => by
    rw [count_arrangements_zero_group_val, naive_zero_group_val] at hc
    exact absurd hc (by omega)⟩


/-! ## The I/O surface of the 30 binaries

`BinaryProfile` transcribes, for each binary under `src/`, the facts its
`main`/`solve` source shows directly: the label of the answer line its
`main` prints on success, the argument of its single
`fs::read_to_string` call, how many file reads it performs, which files
it creates, whether it uses a rayon parallel iterator, and whether it
reads command-line arguments or environment variables or calls
`process::exit`.  The table is the per-binary evidence for the
claims about streams, files, configuration and concurrency. -/

inductive OutStream where
  | stdout
  | stderr
deriving DecidableEq, Repr

structure BinaryProfile where
  name : String
  /-- Prefix of the line printed to stdout by `main` on `Ok`. -/
  answerLabel : String
  /-- Argument of the `fs::read_to_string` call in `solve`. -/
  inputPath : String
  /-- Number of `fs::read_to_string`/`File::open` read calls per run. -/
  inputReads : Nat
  /-- Paths passed to `fs::File::create`. -/
  filesCreated : List String
  /-- Uses a rayon `par_iter`/`into_par_iter`. -/
  usesParallelIterator : Bool
  readsArgs : Bool
  readsEnv : Bool
  callsProcessExit : Bool
deriving DecidableEq, Repr

/-- One entry per binary, transcribed from the 30 source files. -/
def binaries : List BinaryProfile :=
  [⟨"day01/part-1", "Answer: ", "input", 1, [], false, false, false, false⟩,
   ⟨"day01/part-2", "Answer: ", "input", 1, [], false, false, false, false⟩,
   ⟨"day02", "Answer: ", "input", 1, [], false, false, false, false⟩,
   ⟨"day02/part-2", "Answer: ", "input", 1, [], false, false, false, false⟩,
   ⟨"day03/part-2", "Answer: ", "input", 1, [], false, false, false, false⟩,
   ⟨"day04", "Answer: ", "input", 1, [], false, false, false, false⟩,
   ⟨"day04/part-2", "Answer: ", "input", 1, [], false, false, false, false⟩,
   ⟨"day05", "Part 2 answer: ", "input", 1, [], false, false, false, false⟩,
   ⟨"day06", "Answer: ", "input", 1, [], false, false, false, false⟩,
   ⟨"day07", "Answer: ", "input", 1, [], false, false, false, false⟩,
   ⟨"day08", "Answer: ", "input", 1, [], false, false, false, false⟩,
   ⟨"day08/part-2", "Answer: ", "input", 1, [], false, false, false, false⟩,
   ⟨"day09", "Answer: ", "input", 1, [], false, false, false, false⟩,
   ⟨"day10", "Answer: ", "input", 1, [], false, false, false, false⟩,
   ⟨"day11", "Answer: ", "input", 1, [], false, false, false, false⟩,
   ⟨"day11/part-2", "Answer: ", "input", 1, [], false, false, false, false⟩,
   ⟨"day12", "Answer: ", "input", 1, [], true, false, false, false⟩,
   ⟨"day13", "Answer: ", "input", 1, [], true, false, false, false⟩,
   ⟨"day14", "Answer: ", "input", 1, [], false, false, false, false⟩,
   ⟨"day15", "Part 2 answer: ", "input", 1, [], false, false, false, false⟩,
   ⟨"day16", "Part 2 answer: ", "input", 1, [], false, false, false, false⟩,
   ⟨"day17", "Part 2 answer: ", "input", 1, [], false, false, false, false⟩,
   ⟨"day18", "Part 2 answer: ", "input", 1, [], false, false, false, false⟩,
   ⟨"day19", "Part 2 answer: ", "input", 1, [], false, false, false, false⟩,
   ⟨"day20", "Part 2 answer: ", "input", 1, [], false, false, false, false⟩,
   ⟨"day21", "Part 2 answer: ", "input", 1, [], false, false, false, false⟩,
   ⟨"day22", "Part 2 answer: ", "input", 1, [], true, false, false, false⟩,
   ⟨"day23", "Part 2 answer: ", "input", 1, [], false, false, false, false⟩,
   ⟨"day24", "Part 2 answer: ", "input", 1, [], false, false, false, false⟩,
   ⟨"day25", "Part 1 answer: ", "input", 1,
     ["input.gv", "input.cut.gv"], false, false, false, false⟩]

/-- The shared shape of every binary's `fn main`:
`match solve(..) { Ok(answer) => println!("<label><answer>"),
Err(err) => eprintln!("Error occurred: ..") }`, returning `()` (exit
status 0 either way; the stderr payload is the message without the Rust
`{:?}` rendering, which no claim depends on).  This models only the
writes of `fn main` itself; the stdout lines a `solve` function prints
before `main`'s line (many days print progress, timing or debug text to
stdout) are modelled separately where a claim needs them
(`day14_stdout_lines`, `day01_part1_run`). -/
def mainShape (answerLabel : String) (result : Except String Nat) :
    List (OutStream × String) × Nat :=
  match result with
  | Except.ok a => ([(OutStream.stdout, answerLabel ++ toString a)], 0)
  | Except.error e => ([(OutStream.stderr, "Error occurred: " ++ e)], 0)

/-- The stdout lines of a successful day-14 run: the three progress
lines printed by `solve_part_2` (`println!`), the `Finished after ..`
line of `solve`, and the `Answer: ..` line of `main`, in program order.
`elapsed` stands for the wall-clock text of `start.elapsed()`. -/
def day14_stdout_lines (fuel : Nat) (g : Platform) (elapsed : String) :
    Option (List String) :=
  (Platform.solve_part_2_full fuel g).map (fun q =>
    ["Cycle start: " ++ toString q.1,
     "Cycle length: " ++ toString q.2.1,
     "Remaining spins: " ++ toString q.2.2.1,
     "Finished after " ++ elapsed,
     "Answer: " ++ toString q.2.2.2])

/-! ### Day 01 part 1, fully modelled (`src/day01/src/bin/part-1.rs`) -/

/-- `char::to_digit(10)`. -/
def to_digit_10 (c : Char) : Option Nat :=
  if c.isDigit then some (c.toNat - 48) else none

/-- `fn get_number_from_line`: first digit times ten plus last digit,
each defaulting to 0. -/
def get_number_from_line (line : List Char) : Nat :=
  ((line.findSome? to_digit_10).getD 0) * 10
    + ((line.reverse.findSome? to_digit_10).getD 0)

/-- `str::lines`: split on the newline character, drop a final empty
segment, and strip one trailing carriage return per line. -/
def splitNL : List Char → List (List Char)
  | [] => [[]]
  | c :: rest =>
    if c = Char.ofNat 10 then [] :: splitNL rest
    else
      match splitNL rest with
      | seg :: segs => (c :: seg) :: segs
      | [] => [[c]]

def stripCR (l : List Char) : List Char :=
  if l.getLast? = some (Char.ofNat 13) then l.dropLast else l

def rustLines (s : List Char) : List (List Char) :=
  let segs := splitNL s
  (if segs.getLast? = some [] then segs.dropLast else segs).map stripCR

/-- `fn solve` of day 01 part 1: sum of `get_number_from_line` over the
lines of the input file. -/
def day01_part1_solve (content : List Char) : Nat :=
  ((rustLines content).map get_number_from_line).sum

/-- The two `eprint!`/`eprintln!` debug writes per line (payload text
approximates the `{:?}` rendering; only the stream routing matters to
the claims). -/
def day01_debug_entries (content : List Char) : List (OutStream × String) :=
  (rustLines content).flatMap (fun l =>
    [(OutStream.stderr, String.mk l ++ " => "),
     (OutStream.stderr, toString (get_number_from_line l))])

/-- A full run of the day-01 part-1 binary: `file` is the content of
`"input"` (`none` when the read fails), `args`/`env` are the process
arguments and environment, which the source never reads. -/
def day01_part1_run (file : Option (List Char)) (args : List String)
    (env : List (String × String)) (ioErrMsg : String) :
    List (OutStream × String) × Nat :=
  match file with
  | none => ([(OutStream.stderr, "Error occurred: " ++ ioErrMsg)], 0)
  | some content =>
    (day01_debug_entries content ++
      [(OutStream.stdout, "Answer: " ++ toString (day01_part1_solve content))], 0)

/-! ### Malformed-input behaviour (day 14, day 12, day 08 part 2) -/

/-- `impl From<char> for PlatformCell`; the `other => panic!(..)` arm is
modelled as `none`. -/
def PlatformCell.fromChar (c : Char) : Option PlatformCell :=
  if c = '.' then some PlatformCell.Empty
  else if c = '#' then some PlatformCell.StationaryRock
  else if c = 'O' then some PlatformCell.RollingRock
  else none

/-- `impl TryFrom<char> for SpringState` (the error payload approximates
the `format!` text). -/
def SpringState.tryFromChar (c : Char) : Except String SpringState :=
  if c = '.' then Except.ok SpringState.Operational
  else if c = '#' then Except.ok SpringState.Broken
  else if c = '?' then Except.ok SpringState.Unknown
  else Except.error ("Spring state was not any of '.', '#' or '?' ("
    ++ toString c ++ ")")

/-- Day 08 `enum Direction`. -/
inductive Direction where
  | Left
  | Right
deriving DecidableEq, Repr

/-- `impl TryFrom<char> for Direction`. -/
def Direction.tryFromChar (c : Char) : Except String Direction :=
  if c = 'l' ∨ c = 'L' then Except.ok Direction.Left
  else if c = 'r' ∨ c = 'R' then Except.ok Direction.Right
  else Except.error ("Character (" ++ toString c
    ++ ") was neither 'L' nor 'R'")

/-- Day 08 part 1, `fn solve` (`src/day08/src/main.rs`), direction
parsing: each character is converted with `Direction::try_from` and
failures are dropped with an `eprintln!(".. (ignored) ..")`, continuing
the run (`filter_map` + `map_or_else`). -/
def day08p1_parseDirections (l : List Char) : List Direction :=
  l.filterMap (fun c => (Direction.tryFromChar c).toOption)

/-- Day 08 part 2, `fn solve` (`src/day08/src/bin/part-2.rs`),
direction parsing: the identical `filter_map` + `map_or_else` pattern
as part 1. -/
def day08p2_parseDirections (l : List Char) : List Direction :=
  l.filterMap (fun c => (Direction.tryFromChar c).toOption)

/-! ### The rayon map-sum of days 12, 13 and 22

`rayon`'s work-stealing scheduler partitions the record list into
chunks, maps the per-record function over each chunk on some worker,
and sums the partial results in whatever order the workers finish.
`parMapSum` models one such execution: any chunk list whose
concatenation is a permutation of the records. -/

def parMapSum {α : Type} (chunks : List (List α)) (f : α → Nat) : Nat :=
  (chunks.map (fun c => (c.map f).sum)).sum


/-! ## Claims about the I/O surface -/

def day14profile : BinaryProfile :=
  ⟨"day14", "Answer: ", "input", 1, [], false, false, false, false⟩

def day25profile : BinaryProfile :=
  ⟨"day25", "Part 1 answer: ", "input", 1,
    ["input.gv", "input.cut.gv"], false, false, false, false⟩

lemma day01_debug_no_stdout (content : List Char) :
    (day01_debug_entries content).filter
      (fun x => x.1 = OutStream.stdout) = [] := by
  rw [day01_debug_entries]
  induction rustLines content with
  | nil => rfl
  | cons l ls ih =>
    rw [List.flatMap_cons, List.filter_append, ih]
    rfl

/-- C1 (counterexample): on a successful day-14 run the three progress
lines (`Cycle start`, `Cycle length`, `Remaining spins`) and the timing
line are printed to standard output via `println!`, so the run writes
five stdout lines, not one. -/
theorem day14_prints_progress_on_stdout :
    day14_stdout_lines 1 [[PlatformCell.RollingRock]] "0s"
      = some ["Cycle start: 0", "Cycle length: 1", "Remaining spins: 0",
              "Finished after 0s", "Answer: 1"] ∧
    (day14_stdout_lines 1 [[PlatformCell.RollingRock]] "0s").map
        List.length ≠ some 1 := by
  constructor
  · decide
  · decide

/-- C1 (amended): on success every binary's `fn main` itself
contributes exactly one stdout line, `<label><answer>`; the fully
modelled day-01 part-1 run writes exactly that one stdout line, all its
debug text going to stderr; the fully modelled day-14 run instead
writes five stdout lines — its `solve` prints three progress lines and
a timing line to stdout first — with the `Answer:` line, carrying the
`solve_part_2` value, last.  (Days 05, 06, 08, 10, 11, 15–23 and 25
likewise print solve-side progress/debug lines to stdout, so `main`'s
answer line being the sole stdout line of a run is specific to days
such as 01, not a property of every binary.) -/
theorem answer_single_stdout_line :
    (∀ b ∈ binaries, ∀ a : Nat,
       ((mainShape b.answerLabel (Except.ok a)).1.filter
          (fun x => x.1 = OutStream.stdout)).map (fun x => x.2)
         = [b.answerLabel ++ toString a]) ∧
    (∀ content args env err,
       ((day01_part1_run (some content) args env err).1.filter
          (fun x => x.1 = OutStream.stdout)).map (fun x => x.2)
         = ["Answer: " ++ toString (day01_part1_solve content)]) ∧
    (∀ fuel g elapsed ls,
       day14_stdout_lines fuel g elapsed = some ls →
       ls.length = 5 ∧
       ∀ v, Platform.solve_part_2 fuel g = some v →
         ls.getLast? = some ("Answer: " ++ toString v)) := by
  refine ⟨fun b hb a => rfl, ?_, ?_⟩
  · intro content args env err
    show ((day01_debug_entries content
        ++ [(OutStream.stdout,
             "Answer: " ++ toString (day01_part1_solve content))]).filter
          (fun x => x.1 = OutStream.stdout)).map (fun x => x.2)
      = ["Answer: " ++ toString (day01_part1_solve content)]
    rw [List.filter_append, day01_debug_no_stdout]
    rfl
  · intro fuel g elapsed ls h
    rw [day14_stdout_lines] at h
    cases hfull : Platform.solve_part_2_full fuel g with
    | none => rw [hfull] at h; exact absurd h (by simp)
    | some q =>
      rw [hfull, Option.map_some'] at h
      rw [Option.some_inj] at h
      subst h
      refine ⟨rfl, ?_⟩
      intro v hv
      rw [Platform.solve_part_2, hfull, Option.map_some',
        Option.some_inj] at hv
      subst hv
      rfl

/-- Witness for `answer_single_stdout_line` at the day-14 profile and
the one-cell platform. -/
theorem answer_single_stdout_line_witness :
    ((mainShape day14profile.answerLabel (Except.ok 1)).1.filter
       (fun x => x.1 = OutStream.stdout)).map (fun x => x.2)
      = [day14profile.answerLabel ++ toString (1 : Nat)] ∧
    (["Cycle start: 0", "Cycle length: 1", "Remaining spins: 0",
      "Finished after 0s", "Answer: 1"] : List String).length = 5 :=
  ⟨answer_single_stdout_line.1 day14profile (by decide) 1,
   (answer_single_stdout_line.2.2 1 [[PlatformCell.RollingRock]] "0s"
      ["Cycle start: 0", "Cycle length: 1", "Remaining spins: 0",
       "Finished after 0s", "Answer: 1"] (by decide)).1⟩

/-- C3 (counterexample): three binaries, not two, use a rayon parallel
iterator: days 12, 13 and 22. -/
theorem three_parallel_days_not_two :
    (binaries.filter (fun b => b.usesParallelIterator)).map
        (fun b => b.name) = ["day12", "day13", "day22"] ∧
    binaries.countP (fun b => b.usesParallelIterator) ≠ 2 := by
  constructor
  · decide
  · decide

/-- C3 (amended): every binary runs single-threaded except exactly
three days — 12, 13 and 22 — which use rayon parallel iterators. -/
theorem exactly_three_parallel_days :
    binaries.countP (fun b => b.usesParallelIterator) = 3 := by
  decide

lemma parMapSum_perm {α : Type} (chunks : List (List α))
    (records : List α) (f : α → Nat) (h : chunks.flatten.Perm records) :
    parMapSum chunks f = (records.map f).sum := by
  have h1 : parMapSum chunks f = ((chunks.flatten).map f).sum := by
    rw [List.map_flatten, List.sum_flatten, List.map_map]
    rfl
  rw [h1]
  exact List.Perm.sum_eq (List.Perm.map f h)

/-- C4: the rayon reduction is order-independent: for any chunking of
the records into work units (any list of chunks whose concatenation is
a permutation of the records), mapping the per-record function over each
chunk and summing the partial sums yields the sequential in-order
map-sum; in particular for day 12's per-record `count_arrangements`. -/
theorem par_reduction_order_independent :
    (∀ {α : Type} (chunks : List (List α)) (records : List α)
       (f : α → Nat), chunks.flatten.Perm records →
       parMapSum chunks f = (records.map f).sum) ∧
    (∀ (chunks : List (List SpringLine)) (records : List SpringLine),
       chunks.flatten.Perm records →
       parMapSum chunks SpringLine.count_arrangements
         = (records.map SpringLine.count_arrangements).sum) :=
  ⟨fun chunks records f h => parMapSum_perm chunks records f h,
   fun chunks records h =>
     parMapSum_perm chunks records SpringLine.count_arrangements h⟩

/-- Witness for `par_reduction_order_independent`: two singleton chunks
summed in swapped order. -/
theorem par_reduction_order_independent_witness :
    parMapSum [[(⟨[SpringState.Broken], [1]⟩ : SpringLine)],
               [(⟨[SpringState.Operational], []⟩ : SpringLine)]]
        SpringLine.count_arrangements
      = (([(⟨[SpringState.Operational], []⟩ : SpringLine),
           (⟨[SpringState.Broken], [1]⟩ : SpringLine)]).map
          SpringLine.count_arrangements).sum :=
  par_reduction_order_independent.2
    [[(⟨[SpringState.Broken], [1]⟩ : SpringLine)],
     [(⟨[SpringState.Operational], []⟩ : SpringLine)]]
    [(⟨[SpringState.Operational], []⟩ : SpringLine),
     (⟨[SpringState.Broken], [1]⟩ : SpringLine)]
    (List.Perm.swap _ _ _)

/-- C5 (counterexample): neither day 08 binary aborts on a malformed
direction character: `Direction::try_from` fails on `X`, yet both
solvers drop the character with a stderr warning and keep the remaining
directions. -/
theorem day08_silently_skips_bad_direction :
    (Direction.tryFromChar 'X').toOption = none ∧
    day08p1_parseDirections ['L', 'X', 'R']
      = [Direction.Left, Direction.Right] ∧
    day08p2_parseDirections ['L', 'X', 'R']
      = [Direction.Left, Direction.Right] := by
  refine ⟨?_, ?_, ?_⟩
  · decide
  · decide
  · decide

/-- C5 (amended): malformed cell characters are rejected — day 14's
`From<char>` panics (`none`) exactly off `.`/`#`/`O` and day 12's
`TryFrom<char>` errors exactly off `.`/`#`/`?` — but both day 08
binaries (part 1 and part 2) recover from a malformed direction
character: it is skipped and the computation continues on the
remaining characters. -/
theorem malformed_rejected_or_skipped :
    (∀ c, PlatformCell.fromChar c = none
        ↔ ¬(c = Char.ofNat 46 ∨ c = Char.ofNat 35 ∨ c = Char.ofNat 79)) ∧
    (∀ c, (SpringState.tryFromChar c).toOption = none
        ↔ ¬(c = Char.ofNat 46 ∨ c = Char.ofNat 35 ∨ c = Char.ofNat 63)) ∧
    (∀ (c : Char) (l1 l2 : List Char),
       (Direction.tryFromChar c).toOption = none →
       day08p1_parseDirections (l1 ++ c :: l2)
         = day08p1_parseDirections (l1 ++ l2)) ∧
    (∀ (c : Char) (l1 l2 : List Char),
       (Direction.tryFromChar c).toOption = none →
       day08p2_parseDirections (l1 ++ c :: l2)
         = day08p2_parseDirections (l1 ++ l2)) := by
  refine ⟨?_, ?_, ?_, ?_⟩
  · intro c
    rw [PlatformCell.fromChar]
    split_ifs with h1 h2 h3 <;> simp_all <;> decide
  · intro c
    rw [SpringState.tryFromChar]
    split_ifs with h1 h2 h3 <;> simp_all [Except.toOption] <;> decide
  · intro c l1 l2 h
    simp [day08p1_parseDirections, List.filterMap_cons, h]
  · intro c l1 l2 h
    simp [day08p2_parseDirections, List.filterMap_cons, h]

/-- Witness for `malformed_rejected_or_skipped` at the character `x`
and a one-bad-character direction list through both day-08 parsers. -/
theorem malformed_rejected_or_skipped_witness :
    PlatformCell.fromChar 'x' = none ∧
    (SpringState.tryFromChar 'x').toOption = none ∧
    day08p1_parseDirections (['L'] ++ 'X' :: ['R'])
      = day08p1_parseDirections (['L'] ++ ['R']) ∧
    day08p2_parseDirections (['L'] ++ 'X' :: ['R'])
      = day08p2_parseDirections (['L'] ++ ['R']) :=
  ⟨(malformed_rejected_or_skipped.1 'x').2 (by decide),
   (malformed_rejected_or_skipped.2.1 'x').2 (by decide),
   malformed_rejected_or_skipped.2.2.1 'X' ['L'] ['R'] (by decide),
   malformed_rejected_or_skipped.2.2.2 'X' ['L'] ['R'] (by decide)⟩

/-- C6 (counterexample): day 25 opens files other than `input`: it
creates `input.gv` and `input.cut.gv` with `fs::File::create`. -/
theorem day25_creates_extra_files :
    (binaries.filter (fun b => !b.filesCreated.isEmpty)).map
        (fun b => (b.name, b.filesCreated))
      = [("day25", ["input.gv", "input.cut.gv"])] := by
  decide

/-- C6 (amended): every binary reads the file literally named `input`
exactly once per run, and no binary except day 25 opens any other file;
day 25 additionally creates `input.gv` and `input.cut.gv`. -/
theorem single_input_read_and_only_day25_writes :
    ∀ b ∈ binaries, b.inputPath = "input" ∧ b.inputReads = 1 ∧
      (b.name = "day25" ∨ b.filesCreated = []) ∧
      (b.name = "day25" →
        b.filesCreated = ["input.gv", "input.cut.gv"]) := by
  decide

/-- Witness for `single_input_read_and_only_day25_writes` at the day-25
profile. -/
theorem single_input_read_and_only_day25_writes_witness :
    day25profile.inputPath = "input" ∧
    day25profile.filesCreated = ["input.gv", "input.cut.gv"] :=
  ⟨(single_input_read_and_only_day25_writes day25profile (by decide)).1,
   (single_input_read_and_only_day25_writes day25profile
      (by decide)).2.2.2 rfl⟩

/-- C7: when `solve` errors, `main` prints no stdout line, prints the
single stderr line `Error occurred: ..`, and the process exits with
status 0; no binary calls `process::exit`, so a non-zero status can
come only from a panic. -/
theorem error_runs_quiet_stdout_exit_zero :
    ∀ b ∈ binaries, b.callsProcessExit = false ∧
      ∀ e : String,
        ((mainShape b.answerLabel (Except.error e)).1.filter
           (fun x => x.1 = OutStream.stdout)) = [] ∧
        ((mainShape b.answerLabel (Except.error e)).1.filter
           (fun x => x.1 = OutStream.stderr)).map (fun x => x.2)
          = ["Error occurred: " ++ e] ∧
        (mainShape b.answerLabel (Except.error e)).2 = 0 ∧
        ∀ a : Nat, (mainShape b.answerLabel (Except.ok a)).2 = 0 := by
  intro b hb
  refine ⟨?_, fun e => ⟨rfl, rfl, rfl, fun a => rfl⟩⟩
  exact (by decide : ∀ b ∈ binaries, b.callsProcessExit = false) b hb

/-- Witness for `error_runs_quiet_stdout_exit_zero` at the day-14
profile and the error message `boom`. -/
theorem error_runs_quiet_stdout_exit_zero_witness :
    day14profile.callsProcessExit = false ∧
    ((mainShape day14profile.answerLabel (Except.error "boom")).1.filter
       (fun x => x.1 = OutStream.stdout)) = [] :=
  ⟨(error_runs_quiet_stdout_exit_zero day14profile (by decide)).1,
   ((error_runs_quiet_stdout_exit_zero day14profile
      (by decide)).2 "boom").1⟩

/-- C8: no binary reads command-line arguments or environment
variables, and the fully modelled day-01 part-1 run is literally
the same function of the input file regardless of the arguments and
environment it is started with. -/
theorem no_configuration_surface :
    (∀ b ∈ binaries, b.readsArgs = false ∧ b.readsEnv = false) ∧
    (∀ file args env args2 env2 err,
       day01_part1_run file args env err
         = day01_part1_run file args2 env2 err) := by
  refine ⟨by decide, ?_⟩
  intro file args env args2 env2 err
  rfl

/-- Witness for `no_configuration_surface`: the day-14 profile, and a
day-01 run with and without arguments and environment. -/
theorem no_configuration_surface_witness :
    (day14profile.readsArgs = false ∧ day14profile.readsEnv = false) ∧
    day01_part1_run (some ['1']) ["--flag"] [("HOME", "/a")] "e"
      = day01_part1_run (some ['1']) [] [] "e" :=
  ⟨no_configuration_surface.1 day14profile (by decide),
   no_configuration_surface.2 (some ['1']) ["--flag"] [("HOME", "/a")]
     [] [] "e"⟩

end Aoc2023
